import Mathlib

/-!
# FloatKeyContainer

A shallow embedding of `src/FloatKeyContainer.h`, the fixed-capacity sorted container
`FloatKeyContainer<size, key_trim_cooficient, key_type, value_type>`.

Modelling decisions.

* `size_t` is `unsigned int`; its width in bits is the parameter `w`, and every `size_t`
  operation that can leave the range `[0, 2^w)` is reduced modulo `2^w`.
* `key_type` is an integer type chosen by the user of the template.  A converted key is
  modelled by the integer it denotes (`Int`); comparisons of keys are comparisons of these
  integers.  The differences and the `abs` inside `getNearestKey` are evaluated in
  `key_type` after integral promotion, described by the parameter `KeyArith`: an unsigned
  type wraps modulo `2^bits`; overflow of a signed type is undefined behaviour and is
  reported as a fault.
* `key_converted` multiplies a `double` by the coefficient and truncates.  Floating point
  is kept outside the model: `insert`, `getIndex`, `get` and `set` below take the
  *converted* key, that is, the result of the first line
  `key_type key = this->key_converted(dkey)`.
* The arrays `keys` and `values` are lists; for a container of capacity `size` both have
  length `size` (`Shaped`).  An access outside an array is undefined behaviour in C++ and is
  reported here as a fault, as is reaching the end of `getIndex` without a `return`.
* The `while` loop of `getIndex` is run with fuel.
* `save` and `load` copy the bytes of the three data members to and from the external byte
  store.  The bytes of a value and the value denoted by bytes depend on the platform and on
  the template arguments; they are the parameter `Layout`.  The store maps every address to
  a byte, and `save` is described by the sequence of `EEPROM.write` calls it makes.
-/

namespace FloatKeyContainer

/-- Result of running a member function of the container. -/
inductive Run (α : Type) where
  /-- The function returned normally. -/
  | ret (a : α) : Run α
  /-- An array was read at an index outside `[0, size)`. -/
  | oobRead (idx : Nat) : Run α
  /-- An array was written at an index outside `[0, size)`. -/
  | oobWrite (idx : Nat) : Run α
  /-- Control reached the end of a value-returning function without a `return`. -/
  | noReturn : Run α
  /-- A signed arithmetic operation overflowed. -/
  | overflow : Run α
  /-- The fuel given to a loop was used up before the loop stopped. -/
  | timeout : Run α
  deriving DecidableEq

/-- Sequencing of runs: a fault of the first stops the computation. -/
def Run.bind {α β : Type} : Run α → (α → Run β) → Run β
  | .ret a, f => f a
  | .oobRead i, _ => .oobRead i
  | .oobWrite i, _ => .oobWrite i
  | .noReturn, _ => .noReturn
  | .overflow, _ => .overflow
  | .timeout, _ => .timeout

/-- Subtraction of `size_t` values, `w` bits wide. -/
def wsub (w a b : Nat) : Nat := (a + 2 ^ w - b % 2 ^ w) % 2 ^ w

/-- Addition of `size_t` values, `w` bits wide. -/
def wadd (w a b : Nat) : Nat := (a + b) % 2 ^ w

/-- The type in which `getNearestKey` does its arithmetic: `key_type` after integral
promotion, given by its signedness and its width in bits.  (A `key_type` narrower than
`int`, such as `byte`, is promoted to `int`.) -/
structure KeyArith where
  isSigned : Bool
  bits : Nat
  deriving DecidableEq

/-- The value of an arithmetic result `x` in the type: an unsigned type reduces it modulo
`2^bits`; for a signed type a result outside `[-2^(bits-1), 2^(bits-1))` is an overflow. -/
def KeyArith.fit (ka : KeyArith) (x : Int) : Run Int :=
  if ka.isSigned then
    if -(2 ^ (ka.bits - 1)) ≤ x ∧ x < 2 ^ (ka.bits - 1) then .ret x else .overflow
  else .ret (x % 2 ^ ka.bits)

/-- The `abs` of Arduino.h, `((x)>0?(x):-(x))`, on a value of the type. -/
def KeyArith.abs (ka : KeyArith) (x : Int) : Run Int :=
  if x > 0 then .ret x else ka.fit (-x)

/-- The difference `x` and its absolute value are representable in the type: neither the
subtraction nor the `abs` wraps or overflows. -/
def KeyArith.Exact (ka : KeyArith) (x : Int) : Prop :=
  if ka.isSigned then -(2 ^ (ka.bits - 1)) < x ∧ x < 2 ^ (ka.bits - 1)
  else 0 ≤ x ∧ x < 2 ^ ka.bits

instance (ka : KeyArith) (x : Int) : Decidable (ka.Exact x) := by
  unfold KeyArith.Exact; infer_instance

/-- A 16-bit `int`: the arithmetic of a signed 16-bit `key_type`, and of every narrower
`key_type` such as `byte`, on a platform with 16-bit `int`. -/
def int16 : KeyArith := { isSigned := true, bits := 16 }

/-- A 16-bit `unsigned int` as `key_type`. -/
def uint16 : KeyArith := { isSigned := false, bits := 16 }

end FloatKeyContainer

/-- The data members of the class: `elements`, `keys[size]`, `values[size]`. -/
structure FloatKeyContainer (V : Type) where
  elements : Nat
  keys : List Int
  values : List V
  deriving DecidableEq

namespace FloatKeyContainer

variable {V : Type}

/-- Both arrays have the length fixed by the template parameter `size`. -/
def Shaped (size : Nat) (c : FloatKeyContainer V) : Prop :=
  c.keys.length = size ∧ c.values.length = size

instance (size : Nat) (c : FloatKeyContainer V) : Decidable (Shaped size c) := by
  unfold Shaped; infer_instance

/-- The populated keys `keys[0..elements)` are non-decreasing. -/
def SortedKeys (c : FloatKeyContainer V) : Prop :=
  (c.keys.take c.elements).Pairwise (fun a b => a ≤ b)

instance (c : FloatKeyContainer V) : Decidable (SortedKeys c) := by
  unfold SortedKeys; infer_instance

/-- The type `key_type` computes exactly the differences between `key` and every
populated key, taken in either order. -/
def ExactOn (ka : KeyArith) (c : FloatKeyContainer V) (key : Int) : Prop :=
  ∀ x ∈ c.keys.take c.elements, ka.Exact (key - x) ∧ ka.Exact (x - key)

instance (ka : KeyArith) (c : FloatKeyContainer V) (key : Int) :
    Decidable (ExactOn ka c key) := by
  unfold ExactOn; infer_instance

/-- The constructor `FloatKeyContainer()`: every slot is set to zero, `elements = 0`. -/
def new [Zero V] (size : Nat) : FloatKeyContainer V :=
  { elements := 0, keys := List.replicate size 0, values := List.replicate size 0 }

/-- The search loop of `insert`, `for(i=0;i<elements;i++) if(keys[i]>=key) break;`,
started at `i` with `todo = elements - i` iterations left.  Returns the final `i`. -/
def insertScan (keys : List Int) (key : Int) : (todo : Nat) → (i : Nat) → Run Nat
  | 0, i => .ret i
  | todo + 1, i =>
    match keys[i]? with
    | none => .oobRead i
    | some ki => if ki ≥ key then .ret i else insertScan keys key todo (i + 1)

/-- The shift loop of `insert`,
`for(size_t j=i; j<size-1; j++) { keys[j+1] = keys[j]; values[j+1] = values[j]; }`,
started at `j` with `todo = (size-1) - j` iterations left.  Returns both arrays.
(`j+1` cannot wrap, because `j < size-1`.) -/
def insertShift : (todo : Nat) → (j : Nat) → List Int → List V → Run (List Int × List V)
  | 0, _, keys, values => .ret (keys, values)
  | todo + 1, j, keys, values =>
    match keys[j]?, values[j]? with
    | some kj, some vj =>
      if j + 1 < keys.length ∧ j + 1 < values.length then
        insertShift todo (j + 1) (keys.set (j + 1) kj) (values.set (j + 1) vj)
      else .oobWrite (j + 1)
    | _, _ => .oobRead j

/-- The member function `insert`, on the converted key. -/
def insert (w size : Nat) (c : FloatKeyContainer V) (key : Int) (value : V) :
    Run (FloatKeyContainer V) :=
  if c.elements = 0 then
    if 0 < c.keys.length ∧ 0 < c.values.length then
      .ret { elements := 1, keys := c.keys.set 0 key, values := c.values.set 0 value }
    else .oobWrite 0
  else
    (insertScan c.keys key c.elements 0).bind fun i =>
    (insertShift (wsub w size 1 - i) i c.keys c.values).bind fun kv =>
    if i < kv.1.length ∧ i < kv.2.length then
      .ret { elements := wadd w c.elements 1, keys := kv.1.set i key, values := kv.2.set i value }
    else .oobWrite i

/-- A sequence of calls of `insert`, stopping at the first fault. -/
def insertAll (w size : Nat) (c : FloatKeyContainer V) : List (Int × V) → Run (FloatKeyContainer V)
  | [] => .ret c
  | kv :: rest => (insert w size c kv.1 kv.2).bind fun c1 => insertAll w size c1 rest

/-- The member function `getNearestKey`:
`abs(key-keys[first]) < abs(keys[second]-key) ? first : second`, with both differences and
both `abs` evaluated in `key_type`. -/
def getNearestKey (ka : KeyArith) (c : FloatKeyContainer V) (key : Int) (first second : Nat) :
    Run Nat :=
  match c.keys[first]?, c.keys[second]? with
  | some kf, some ks =>
    (ka.fit (key - kf)).bind fun d1 =>
    (ka.abs d1).bind fun a1 =>
    (ka.fit (ks - key)).bind fun d2 =>
    (ka.abs d2).bind fun a2 =>
    .ret (if a1 < a2 then first else second)
  | none, _ => .oobRead first
  | some _, none => .oobRead second

/-- The `while(left<=right)` loop of `getIndex`, run for at most `fuel` iterations.
Returns the final value of `middle`. -/
def searchLoop (w : Nat) (keys : List Int) (key : Int) :
    (fuel : Nat) → (left right middle : Nat) → Run Nat
  | 0, _, _, _ => .timeout
  | fuel + 1, left, right, middle =>
    if left ≤ right then
      let middle := left + (right - left) / 2
      match keys[middle]? with
      | none => .oobRead middle
      | some km =>
        if key < km then searchLoop w keys key fuel left (wsub w middle 1) middle
        else if key > km then searchLoop w keys key fuel (wadd w middle 1) right middle
        else .ret middle
    else .ret middle

/-- The member function `getIndex`, on the converted key.  `middle` is declared without an
initial value; the loop assigns it before it is read, because `left = 0 <= right` holds on
entry, so the `0` passed below is never observed. -/
def getIndex (ka : KeyArith) (w size fuel : Nat) (c : FloatKeyContainer V) (key : Int) :
    Run Nat :=
  if c.elements = 1 then .ret 0
  else
    (searchLoop w c.keys key fuel 0 c.elements 0).bind fun middle =>
    if (middle ≠ 0 ∧ middle ≠ wsub w c.elements 1) ∧ c.elements > 2 then
      (getNearestKey ka c key (wsub w middle 1) middle).bind fun a =>
      (getNearestKey ka c key middle (wadd w middle 1)).bind fun b =>
      getNearestKey ka c key a b
    else if middle = 0 then
      if c.elements < 2 then .ret 0
      else getNearestKey ka c key 0 1
    else if middle = wsub w c.elements 1 then
      if size < 2 then .ret 0
      else getNearestKey ka c key 0 1
    else .noReturn

/-- The member function `get`: `values[getIndex(key)]`. -/
def get (ka : KeyArith) (w size fuel : Nat) (c : FloatKeyContainer V) (key : Int) : Run V :=
  (getIndex ka w size fuel c key).bind fun idx =>
  match c.values[idx]? with
  | some v => .ret v
  | none => .oobRead idx

/-- The member function `set`: `values[getIndex(key)] = value`. -/
def set (ka : KeyArith) (w size fuel : Nat) (c : FloatKeyContainer V) (key : Int)
    (value : V) : Run (FloatKeyContainer V) :=
  (getIndex ka w size fuel c key).bind fun idx =>
  if idx < c.values.length then
    .ret { elements := c.elements, keys := c.keys, values := c.values.set idx value }
  else .oobWrite idx

/-- The indices at which the `while` loop of `getIndex` reads `keys`, in the order of the
reads: every iteration that is entered reads `keys[middle]`. -/
def searchLoopReads (w : Nat) (keys : List Int) (key : Int) :
    (fuel : Nat) → (left right : Nat) → List Nat
  | 0, _, _ => []
  | fuel + 1, left, right =>
    if left ≤ right then
      let middle := left + (right - left) / 2
      match keys[middle]? with
      | none => [middle]
      | some km =>
        if key < km then middle :: searchLoopReads w keys key fuel left (wsub w middle 1)
        else if key > km then middle :: searchLoopReads w keys key fuel (wadd w middle 1) right
        else [middle]
    else []

/-- A byte, `uint8_t`. -/
abbrev Byte := Fin 256

/-- Modelled from the spec: the external byte store, the `EEPROM` object of `EEPROM.h`,
which is not part of the repository.  It is a capability with `read(address)` and
`write(address, byte)`; what was last written at an address is what is read there. -/
abbrev Store := Nat → Byte

/-- The call `EEPROM.read(a)`. -/
def Store.read (s : Store) (a : Nat) : Byte := s a

/-- The call `EEPROM.write(a, b)`. -/
def Store.write (s : Store) (a : Nat) (b : Byte) : Store := fun x => if x = a then b else s x

/-- A sequence of `EEPROM.write` calls, in order. -/
def Store.writes (s : Store) : List (Nat × Byte) → Store
  | [] => s
  | ab :: rest => Store.writes (s.write ab.1 ab.2) rest

/-- The object representation of the data members, fixed by the platform and by the
template arguments `key_type` and `value_type`: the three `sizeof`s, the bytes of a value
of each type and the value denoted by such bytes. -/
structure Layout (V : Type) where
  sizeofSize : Nat
  sizeofKey : Nat
  sizeofValue : Nat
  sizeBytes : Nat → List Byte
  bytesSize : List Byte → Nat
  keyBytes : Int → List Byte
  bytesKey : List Byte → Int
  valueBytes : V → List Byte
  bytesValue : List Byte → V

/-- The bytes behind `(byte*)&this->elements`. -/
def elementsMemory (L : Layout V) (c : FloatKeyContainer V) : List Byte :=
  L.sizeBytes c.elements

/-- The bytes behind `(byte*)this->keys`: the elements of the array one after the other. -/
def keysMemory (L : Layout V) (c : FloatKeyContainer V) : List Byte :=
  c.keys.flatMap L.keyBytes

/-- The bytes behind `(byte*)this->values`. -/
def valuesMemory (L : Layout V) (c : FloatKeyContainer V) : List Byte :=
  c.values.flatMap L.valueBytes

/-- The array of `n` elements of `sz` bytes each denoted by the bytes `mem`. -/
def decodeArray {α : Type} (dec : List Byte → α) (sz : Nat) : (n : Nat) → List Byte → List α
  | 0, _ => []
  | n + 1, mem => dec (mem.take sz) :: decodeArray dec sz n (mem.drop sz)

/-- The container denoted by the bytes of its three data members. -/
def ofMemory (L : Layout V) (size : Nat) (em km vm : List Byte) : FloatKeyContainer V :=
  { elements := L.bytesSize em,
    keys := decodeArray L.bytesKey L.sizeofKey size km,
    values := decodeArray L.bytesValue L.sizeofValue size vm }

/-- The data members of `c` occupy `sizeof(size_t)`, `sizeof(key_type)*size` and
`sizeof(value_type)*size` bytes. -/
def WellSized (L : Layout V) (size : Nat) (c : FloatKeyContainer V) : Prop :=
  (elementsMemory L c).length = L.sizeofSize ∧
  (keysMemory L c).length = L.sizeofKey * size ∧
  (valuesMemory L c).length = L.sizeofValue * size

instance (L : Layout V) (size : Nat) (c : FloatKeyContainer V) :
    Decidable (WellSized L size c) := by
  unfold WellSized; infer_instance

/-- The state `c` is the one denoted by its own bytes: its members hold values of their
types. -/
def Faithful (L : Layout V) (size : Nat) (c : FloatKeyContainer V) : Prop :=
  ofMemory L size (elementsMemory L c) (keysMemory L c) (valuesMemory L c) = c

instance [DecidableEq V] (L : Layout V) (size : Nat) (c : FloatKeyContainer V) :
    Decidable (Faithful L size c) := by
  unfold Faithful; infer_instance

/-- Multiplication of `size_t` values, `w` bits wide. -/
def wmul (w a b : Nat) : Nat := (a * b) % 2 ^ w

/-- A loop of `save`, `for(size_t i=0; i<n; i++) EEPROM.write(base + i, memory[i]);`,
started at `i` with `todo = n - i` iterations left: the writes it performs, in order.
(`memory[i]` is inside the object, because `i < n`.) -/
def writeLoop (w base : Nat) (memory : List Byte) : (todo : Nat) → (i : Nat) → List (Nat × Byte)
  | 0, _ => []
  | todo + 1, i => (wadd w base i, memory.getD i 0) :: writeLoop w base memory todo (i + 1)

/-- The `EEPROM.write` calls of `save(address)`, in order: the bytes of `elements` from
`address`, the bytes of `keys` from `address + sizeof(size_t)`, the bytes of `values` from
`address + sizeof(size_t) + keys_memory_size`. -/
def saveWrites (L : Layout V) (w size : Nat) (c : FloatKeyContainer V) (address : Nat) :
    List (Nat × Byte) :=
  let elements_count_memory_size := L.sizeofSize
  let keys_memory_size := wmul w L.sizeofKey size
  let values_memory_size := wmul w L.sizeofValue size
  writeLoop w address (elementsMemory L c) elements_count_memory_size 0 ++
  writeLoop w (wadd w address elements_count_memory_size) (keysMemory L c) keys_memory_size 0 ++
  writeLoop w (wadd w (wadd w address elements_count_memory_size) keys_memory_size)
    (valuesMemory L c) values_memory_size 0

/-- The member function `save`: the container is only read, the store receives the
writes. -/
def save (L : Layout V) (w size : Nat) (c : FloatKeyContainer V) (address : Nat) (s : Store) :
    FloatKeyContainer V × Store :=
  (c, s.writes (saveWrites L w size c address))

/-- A loop of `load`, `for(size_t i=0; i<n; i++) memory[i] = EEPROM.read(base + i);`,
started at `i` with `todo = n - i` iterations left: the bytes of the member afterwards.
(`memory[i]` is inside the object, because `i < n`.) -/
def readLoop (w base : Nat) (s : Store) : (todo : Nat) → (i : Nat) → List Byte → List Byte
  | 0, _, memory => memory
  | todo + 1, i, memory => readLoop w base s todo (i + 1) (memory.set i (s.read (wadd w base i)))

/-- The member function `load`: the bytes of the three data members are overwritten with
the bytes read from the store. -/
def load (L : Layout V) (w size : Nat) (c : FloatKeyContainer V) (address : Nat) (s : Store) :
    FloatKeyContainer V :=
  let elements_count_memory_size := L.sizeofSize
  let keys_memory_size := wmul w L.sizeofKey size
  let values_memory_size := wmul w L.sizeofValue size
  ofMemory L size
    (readLoop w address s elements_count_memory_size 0 (elementsMemory L c))
    (readLoop w (wadd w address elements_count_memory_size) s keys_memory_size 0
      (keysMemory L c))
    (readLoop w (wadd w (wadd w address elements_count_memory_size) keys_memory_size) s
      values_memory_size 0 (valuesMemory L c))

/-- An instance of the layout: a 16-bit little-endian `size_t` and one-byte unsigned
`key_type` and `value_type` (`byte`). -/
def byteLayout : Layout Nat :=
  { sizeofSize := 2, sizeofKey := 1, sizeofValue := 1,
    sizeBytes := fun n => [Fin.ofNat n, Fin.ofNat (n / 256)],
    bytesSize := fun bs => (bs.getD 0 0).val + 256 * (bs.getD 1 0).val,
    keyBytes := fun k => [Fin.ofNat k.toNat],
    bytesKey := fun bs => ((bs.getD 0 0).val : Int),
    valueBytes := fun v => [Fin.ofNat v],
    bytesValue := fun bs => (bs.getD 0 0).val }

end FloatKeyContainer

/-! ## Auxiliary lemmas -/

namespace FloatKeyContainer

variable {V : Type}

theorem sortedKeys_iff (c : FloatKeyContainer V) :
    SortedKeys c ↔ ∀ a b x y, a < b → b < c.elements →
      c.keys[a]? = some x → c.keys[b]? = some y → x ≤ y := by
  unfold SortedKeys
  rw [List.pairwise_iff_getElem]
  constructor
  · intro h a b x y hab hb hx hy
    obtain ⟨hbl, hy⟩ := List.getElem?_eq_some.1 hy
    obtain ⟨hal, hx⟩ := List.getElem?_eq_some.1 hx
    have := h a b (by simp [List.length_take]; omega) (by simp [List.length_take]; omega) hab
    simp only [List.getElem_take] at this
    rw [hx, hy] at this
    exact this
  · intro h a b ha hb hab
    simp only [List.length_take] at ha hb
    simp only [List.getElem_take]
    exact h a b _ _ hab (by omega) (List.getElem?_eq_getElem (by omega)) (List.getElem?_eq_getElem (by omega))

theorem insertScan_spec (keys : List Int) (key : Int) :
    ∀ (todo i : Nat), i + todo ≤ keys.length →
      ∃ p, insertScan keys key todo i = .ret p ∧ i ≤ p ∧ p ≤ i + todo ∧
        (∀ j x, i ≤ j → j < p → keys[j]? = some x → x < key) ∧
        (p < i + todo → ∃ x, keys[p]? = some x ∧ key ≤ x) := by
  intro todo
  induction todo with
  | zero =>
    intro i _
    exact ⟨i, rfl, le_refl _, le_refl _, fun j x h1 h2 => by omega, fun h => by omega⟩
  | succ n ih =>
    intro i hi
    have hlt : i < keys.length := by omega
    unfold insertScan
    rw [List.getElem?_eq_getElem hlt]
    by_cases hk : keys[i] ≥ key
    · simp only [hk, if_true]
      exact ⟨i, rfl, le_refl _, by omega, fun j x h1 h2 => by omega,
        fun _ => ⟨keys[i], List.getElem?_eq_getElem hlt, hk⟩⟩
    · simp only [hk, if_false]
      obtain ⟨p, hp, h1, h2, h3, h4⟩ := ih (i + 1) (by omega)
      refine ⟨p, hp, by omega, by omega, ?_, fun h => h4 (by omega)⟩
      intro j x hj1 hj2 hx
      by_cases hji : j = i
      · subst hji
        rw [List.getElem?_eq_getElem hlt] at hx
        have : keys[j] = x := by simpa using hx
        omega
      · exact h3 j x (by omega) hj2 hx

theorem wsub_one (w a : Nat) (h1 : 1 ≤ a) (h2 : a < 2 ^ w) : wsub w a 1 = a - 1 := by
  unfold wsub
  have h3 : 1 % 2 ^ w = 1 := Nat.mod_eq_of_lt (by omega)
  have h4 : a + 2 ^ w - 1 = (a - 1) + 2 ^ w := by omega
  rw [h3, h4, Nat.add_mod_right, Nat.mod_eq_of_lt (by omega)]

theorem wadd_one (w a : Nat) (h : a + 1 < 2 ^ w) : wadd w a 1 = a + 1 := by
  unfold wadd
  exact Nat.mod_eq_of_lt h

theorem insertShift_spec : ∀ (todo j : Nat) (keys : List Int) (values : List V),
    keys.length = values.length → j + todo + 1 = keys.length →
    ∃ ks vs, insertShift todo j keys values = .ret (ks, vs) ∧
      ks.length = keys.length ∧ vs.length = values.length ∧
      (∀ t, t ≤ j → ks[t]? = keys[t]?) ∧ (∀ t, j < t → t < keys.length → ks[t]? = keys[j]?) ∧
      (∀ t, t ≤ j → vs[t]? = values[t]?) ∧
      (∀ t, j < t → t < keys.length → vs[t]? = values[j]?) := by
  intro todo
  induction todo with
  | zero =>
    intro j keys values _ hj
    exact ⟨keys, values, rfl, rfl, rfl, fun _ _ => rfl, fun t h1 h2 => by omega,
      fun _ _ => rfl, fun t h1 h2 => by omega⟩
  | succ n ih =>
    intro j keys values hlen hj
    have hjk : j < keys.length := by omega
    have hjv : j < values.length := by omega
    unfold insertShift
    rw [List.getElem?_eq_getElem hjk, List.getElem?_eq_getElem hjv]
    have hcond : j + 1 < keys.length ∧ j + 1 < values.length := ⟨by omega, by omega⟩
    simp only [hcond, and_self, if_true]
    obtain ⟨ks, vs, hrun, hkl, hvl, hk1, hk2, hv1, hv2⟩ :=
      ih (j + 1) (keys.set (j + 1) keys[j]) (values.set (j + 1) values[j])
        (by simp only [List.length_set]; exact hlen) (by simp only [List.length_set]; omega)
    simp only [List.length_set] at hkl hvl hk2 hv2
    refine ⟨ks, vs, hrun, hkl, hvl, ?_, ?_, ?_, ?_⟩
    · intro t ht
      rw [hk1 t (by omega), List.getElem?_set_ne (by omega)]
    · intro t ht1 ht2
      by_cases hte : t = j + 1
      · subst hte
        rw [hk1 (j + 1) (le_refl _), List.getElem?_set_self hcond.1]
      · rw [hk2 t (by omega) ht2, List.getElem?_set_self hcond.1]
    · intro t ht
      rw [hv1 t (by omega), List.getElem?_set_ne (by omega)]
    · intro t ht1 ht2
      by_cases hte : t = j + 1
      · subst hte
        rw [hv1 (j + 1) (le_refl _), List.getElem?_set_self hcond.2]
      · rw [hv2 t (by omega) ht2, List.getElem?_set_self hcond.2]

/-- What `insert` does on a non-empty container whose insertion point lies inside the
arrays: the scan stops at `i`, the slots before `i` are kept, slot `i` receives the new
pair and every later slot receives the old pair of slot `i`. -/
theorem insert_spec (w size : Nat) (c : FloatKeyContainer V) (key : Int) (value : V)
    (hs : Shaped size c) (hw : size < 2 ^ w) (h1 : 1 ≤ c.elements) (h2 : c.elements ≤ size) :
    ∃ i, insertScan c.keys key c.elements 0 = .ret i ∧ i ≤ c.elements ∧
      (∀ t x, t < i → c.keys[t]? = some x → x < key) ∧
      (i < c.elements → ∃ x, c.keys[i]? = some x ∧ key ≤ x) ∧
      (i < size → ∃ c1, insert w size c key value = .ret c1 ∧
        c1.elements = wadd w c.elements 1 ∧ Shaped size c1 ∧
        (∀ t, t < i → c1.keys[t]? = c.keys[t]? ∧ c1.values[t]? = c.values[t]?) ∧
        (c1.keys[i]? = some key ∧ c1.values[i]? = some value) ∧
        (∀ t, i < t → t < size → c1.keys[t]? = c.keys[i]? ∧ c1.values[t]? = c.values[i]?)) := by
  obtain ⟨hk, hv⟩ := hs
  obtain ⟨i, hscan, _, hi, hlt, hge⟩ := insertScan_spec c.keys key c.elements 0 (by omega)
  refine ⟨i, hscan, by omega, fun t x ht hx => hlt t x (Nat.zero_le _) ht hx,
    fun h => hge (by omega), ?_⟩
  intro his
  obtain ⟨ks, vs, hrun, hkl, hvl, hk1, hk2, hv1, hv2⟩ :=
    insertShift_spec (size - 1 - i) i c.keys c.values (by omega) (by omega)
  have hne : c.elements ≠ 0 := by omega
  have hcond : i < ks.length ∧ i < vs.length := ⟨by omega, by omega⟩
  refine ⟨{ elements := wadd w c.elements 1, keys := ks.set i key, values := vs.set i value },
    ?_, rfl, ⟨by simp only [List.length_set]; omega, by simp only [List.length_set]; omega⟩,
    ?_, ?_, ?_⟩
  · unfold insert
    rw [if_neg hne, hscan]
    simp only [Run.bind]
    rw [wsub_one w size (by omega) hw, hrun]
    simp only [Run.bind, hcond, and_self, if_true]
  · intro t ht
    exact ⟨by rw [List.getElem?_set_ne (by omega), hk1 t (by omega)],
      by rw [List.getElem?_set_ne (by omega), hv1 t (by omega)]⟩
  · exact ⟨List.getElem?_set_self hcond.1, List.getElem?_set_self hcond.2⟩
  · intro t ht1 ht2
    exact ⟨by rw [List.getElem?_set_ne (by omega), hk2 t ht1 (by omega)],
      by rw [List.getElem?_set_ne (by omega), hv2 t ht1 (by omega)]⟩

theorem wadd_one_of_lt (w size e : Nat) (hw : size < 2 ^ w) (he : e < size) :
    wadd w e 1 = e + 1 :=
  wadd_one w e (by omega)

/-- One call of `insert` on a container that is not full keeps the populated keys
non-decreasing and adds one element. -/
theorem insert_sorted_step (w size : Nat) (c : FloatKeyContainer V) (key : Int) (value : V)
    (hs : Shaped size c) (hw : size < 2 ^ w) (hlt : c.elements < size) (hsort : SortedKeys c) :
    ∃ c1, insert w size c key value = .ret c1 ∧ Shaped size c1 ∧
      c1.elements = c.elements + 1 ∧ SortedKeys c1 := by
  by_cases h0 : c.elements = 0
  · have hcond : 0 < c.keys.length ∧ 0 < c.values.length := ⟨by have := hs.1; omega, by have := hs.2; omega⟩
    refine ⟨{ elements := 1, keys := c.keys.set 0 key, values := c.values.set 0 value }, ?_,
      ⟨by simp only [List.length_set]; exact hs.1, by simp only [List.length_set]; exact hs.2⟩,
      by simp only [h0], ?_⟩
    · unfold insert
      rw [if_pos h0, if_pos hcond]
    · rw [sortedKeys_iff]
      intro a b x y hab hb
      simp only at hb
      omega
  · obtain ⟨i, _, hie, hbelow, hat, hins⟩ :=
      insert_spec w size c key value hs hw (by omega) (by omega)
    obtain ⟨c1, hrun, hel, hshape, hpre, hmid, hpost⟩ := hins (by omega)
    rw [wadd_one_of_lt w size c.elements hw hlt] at hel
    refine ⟨c1, hrun, hshape, hel, ?_⟩
    rw [sortedKeys_iff] at hsort ⊢
    intro a b x y hab hb hx hy
    rw [hel] at hb
    rcases Nat.lt_trichotomy b i with hbi | hbi | hbi
    · rw [(hpre a (by omega)).1] at hx
      rw [(hpre b hbi).1] at hy
      exact hsort a b x y hab (by omega) hx hy
    · subst hbi
      rw [(hpre a hab).1] at hx
      rw [hmid.1] at hy
      have := hbelow a x hab hx
      have : key = y := by simpa using hy
      omega
    · obtain ⟨z, hz, hkz⟩ := hat (by omega)
      rw [(hpost b hbi (by omega)).1, hz] at hy
      have hzy : z = y := by simpa using hy
      rcases Nat.lt_trichotomy a i with hai | hai | hai
      · rw [(hpre a hai).1] at hx
        have := hsort a i x z hai (by omega) hx hz
        omega
      · subst hai
        rw [hmid.1] at hx
        have : key = x := by simpa using hx
        omega
      · rw [(hpost a hai (by omega)).1, hz] at hx
        have : z = x := by simpa using hx
        omega

theorem shaped_new [Zero V] (size : Nat) : Shaped size (new size : FloatKeyContainer V) :=
  ⟨by simp [new], by simp [new]⟩

theorem sortedKeys_new [Zero V] (size : Nat) : SortedKeys (new size : FloatKeyContainer V) := by
  simp [SortedKeys, new]

/-- Repeated insertion, as long as there is room, keeps the populated keys non-decreasing. -/
theorem insertAll_sorted (w size : Nat) (hw : size < 2 ^ w) :
    ∀ (kvs : List (Int × V)) (c : FloatKeyContainer V), Shaped size c → SortedKeys c →
      c.elements + kvs.length ≤ size →
      ∃ c1, insertAll w size c kvs = .ret c1 ∧ Shaped size c1 ∧
        c1.elements = c.elements + kvs.length ∧ SortedKeys c1 := by
  intro kvs
  induction kvs with
  | nil =>
    intro c hs hsort _
    exact ⟨c, rfl, hs, rfl, hsort⟩
  | cons kv rest ih =>
    intro c hs hsort hlen
    simp only [List.length_cons] at hlen
    obtain ⟨c1, hrun, hs1, hel1, hsort1⟩ :=
      insert_sorted_step w size c kv.1 kv.2 hs hw (by omega) hsort
    obtain ⟨c2, hrun2, hs2, hel2, hsort2⟩ := ih c1 hs1 hsort1 (by omega)
    refine ⟨c2, ?_, hs2, by simp only [List.length_cons]; omega, hsort2⟩
    unfold insertAll
    rw [hrun]
    exact hrun2

/-- More fuel does not change a run of the search loop that has stopped. -/
theorem searchLoop_mono (w : Nat) (keys : List Int) (key : Int) :
    ∀ (fuel left right middle : Nat) (res : Run Nat),
      searchLoop w keys key fuel left right middle = res → res ≠ .timeout →
      searchLoop w keys key (fuel + 1) left right middle = res := by
  intro fuel
  induction fuel with
  | zero =>
    intro left right middle res h hne
    unfold searchLoop at h
    exact absurd h.symm hne
  | succ n ih =>
    intro left right middle res h hne
    unfold searchLoop
    unfold searchLoop at h
    by_cases hlr : left ≤ right
    · simp only [hlr, if_true] at h ⊢
      cases hk : keys[left + (right - left) / 2]? with
      | none => simpa [hk] using h
      | some km =>
        simp only [hk] at h ⊢
        by_cases h1 : key < km
        · simp only [h1, if_true] at h ⊢
          exact ih _ _ _ _ h hne
        · by_cases h2 : key > km
          · simp only [h1, h2, if_true, if_false] at h ⊢
            exact ih _ _ _ _ h hne
          · simpa only [h1, h2, if_false] using h
    · simpa only [hlr, if_false] using h

theorem searchLoop_mono_add (w : Nat) (keys : List Int) (key : Int)
    (fuel left right middle : Nat) (res : Run Nat)
    (h : searchLoop w keys key fuel left right middle = res) (hne : res ≠ .timeout) :
    ∀ extra, searchLoop w keys key (fuel + extra) left right middle = res := by
  intro extra
  induction extra with
  | zero => exact h
  | succ n ih => exact searchLoop_mono w keys key (fuel + n) left right middle res ih hne

/-- More fuel does not change a run of `getIndex` that has stopped. -/
theorem getIndex_mono (ka : KeyArith) (w size fuel : Nat) (c : FloatKeyContainer V)
    (key : Int) (res : Run Nat)
    (h : getIndex ka w size fuel c key = res) (hne : res ≠ .timeout) :
    ∀ extra, getIndex ka w size (fuel + extra) c key = res := by
  intro extra
  unfold getIndex at h ⊢
  by_cases h1 : c.elements = 1
  · simpa only [h1, if_true] using h
  · simp only [h1, if_false] at h ⊢
    cases hs : searchLoop w c.keys key fuel 0 c.elements 0 with
    | timeout =>
      rw [hs] at h
      exact absurd h.symm hne
    | ret m =>
      rw [searchLoop_mono_add w c.keys key fuel 0 c.elements 0 _ hs (by simp) extra]
      rw [hs] at h
      exact h
    | oobRead i =>
      rw [searchLoop_mono_add w c.keys key fuel 0 c.elements 0 _ hs (by simp) extra]
      rw [hs] at h
      exact h
    | oobWrite i =>
      rw [searchLoop_mono_add w c.keys key fuel 0 c.elements 0 _ hs (by simp) extra]
      rw [hs] at h
      exact h
    | noReturn =>
      rw [searchLoop_mono_add w c.keys key fuel 0 c.elements 0 _ hs (by simp) extra]
      rw [hs] at h
      exact h
    | overflow =>
      rw [searchLoop_mono_add w c.keys key fuel 0 c.elements 0 _ hs (by simp) extra]
      rw [hs] at h
      exact h

/-- More fuel does not change a run of `get` that has stopped. -/
theorem get_mono (ka : KeyArith) (w size fuel : Nat) (c : FloatKeyContainer V) (key : Int)
    (res : Run V)
    (h : get ka w size fuel c key = res) (hne : res ≠ .timeout) :
    ∀ extra, get ka w size (fuel + extra) c key = res := by
  intro extra
  unfold get at h ⊢
  cases hs : getIndex ka w size fuel c key with
  | timeout =>
    rw [hs] at h
    exact absurd h.symm hne
  | ret m =>
    rw [getIndex_mono ka w size fuel c key _ hs (by simp) extra]
    rw [hs] at h
    exact h
  | oobRead i =>
    rw [getIndex_mono ka w size fuel c key _ hs (by simp) extra]
    rw [hs] at h
    exact h
  | oobWrite i =>
    rw [getIndex_mono ka w size fuel c key _ hs (by simp) extra]
    rw [hs] at h
    exact h
  | noReturn =>
    rw [getIndex_mono ka w size fuel c key _ hs (by simp) extra]
    rw [hs] at h
    exact h
  | overflow =>
    rw [getIndex_mono ka w size fuel c key _ hs (by simp) extra]
    rw [hs] at h
    exact h

theorem bind_eq_ret {α β : Type} (x : Run α) (f : α → Run β) (b : β)
    (h : x.bind f = .ret b) : ∃ a, x = .ret a ∧ f a = .ret b := by
  cases x with
  | ret a => exact ⟨a, rfl, h⟩
  | oobRead i => simp [Run.bind] at h
  | oobWrite i => simp [Run.bind] at h
  | noReturn => simp [Run.bind] at h
  | overflow => simp [Run.bind] at h
  | timeout => simp [Run.bind] at h

/-- When a difference and its absolute value are representable, `key_type` computes both
exactly. -/
theorem fit_abs_exact (ka : KeyArith) (x : Int) (h : ka.Exact x) :
    ka.fit x = .ret x ∧ ka.abs x = .ret |x| := by
  unfold KeyArith.Exact at h
  unfold KeyArith.abs KeyArith.fit
  cases hs : ka.isSigned with
  | true =>
    simp only [hs, if_true] at h ⊢
    refine ⟨by rw [if_pos ⟨le_of_lt h.1, h.2⟩], ?_⟩
    by_cases hx : x > 0
    · rw [if_pos hx, abs_of_pos hx]
    · rw [if_neg hx, if_pos ⟨by omega, by omega⟩, abs_of_nonpos (by omega)]
  | false =>
    simp only [hs, Bool.false_eq_true, if_false] at h ⊢
    refine ⟨by rw [Int.emod_eq_of_lt h.1 h.2], ?_⟩
    by_cases hx : x > 0
    · rw [if_pos hx, abs_of_pos hx]
    · have h0 : x = 0 := by omega
      subst h0
      simp

theorem one_lt_two_pow (w size : Nat) (hw : size < 2 ^ w) (hsize : 1 ≤ size) : 1 ≤ w := by
  rcases Nat.eq_zero_or_pos w with h | h
  · subst h
    simp at hw
    omega
  · exact h

theorem two_le_two_pow (w : Nat) (h : 1 ≤ w) : 2 ≤ 2 ^ w := by
  calc 2 = 2 ^ 1 := rfl
    _ ≤ 2 ^ w := Nat.pow_le_pow_right (by decide) h

/-- On differences that `key_type` computes exactly, `getNearestKey` compares the two
distances. -/
theorem getNearestKey_eq (ka : KeyArith) (c : FloatKeyContainer V) (key kf ks : Int)
    (first second : Nat) (hf : c.keys[first]? = some kf) (hs : c.keys[second]? = some ks)
    (h1 : ka.Exact (key - kf)) (h2 : ka.Exact (ks - key)) :
    getNearestKey ka c key first second
      = .ret (if |key - kf| < |ks - key| then first else second) := by
  obtain ⟨f1, a1⟩ := fit_abs_exact ka _ h1
  obtain ⟨f2, a2⟩ := fit_abs_exact ka _ h2
  unfold getNearestKey
  rw [hf, hs]
  simp only [f1, a1, f2, a2, Run.bind]

/-- With two elements and a target between the two keys, `getIndex` is the comparison of
the two distances. -/
theorem getIndex_two (ka : KeyArith) (w size fuel : Nat) (c : FloatKeyContainer V)
    (k k0 k1 : Int) (hw : size < 2 ^ w) (hsize : 2 ≤ size) (he : c.elements = 2)
    (hk0 : c.keys[0]? = some k0) (hk1 : c.keys[1]? = some k1)
    (hlo : k0 ≤ k) (hhi : k ≤ k1) (hex0 : ka.Exact (k - k0)) (hex1 : ka.Exact (k1 - k)) :
    getIndex ka w size (fuel + 3) c k = .ret (if |k - k0| < |k1 - k| then 0 else 1) := by
  have hw1 : 1 ≤ w := one_lt_two_pow w size hw (by omega)
  have h2w : 2 ≤ 2 ^ w := two_le_two_pow w hw1
  have e1 : wsub w 1 1 = 0 := wsub_one w 1 (le_refl _) (by omega)
  have e2 : wadd w 0 1 = 1 := wadd_one w 0 (by omega)
  have e3 : wsub w 2 1 = 1 := wsub_one w 2 (by omega) (by omega)
  have hgn := getNearestKey_eq ka c k k0 k1 0 1 hk0 hk1 hex0 hex1
  have hsz : ¬ size < 2 := by omega
  unfold getIndex
  rw [he]
  simp only [show ¬ (2 = 1) by decide, if_false, e3]
  rcases lt_or_eq_of_le hhi with hlt | heq
  · rcases lt_or_eq_of_le hlo with hgt | heq0
    · have hloop : searchLoop w c.keys k (fuel + 3) 0 2 0 = .ret 0 := by
        simp [searchLoop, hk0, hk1, hlt, hgt, e1, e2, not_lt.2 hlo]
      rw [hloop]
      simp [Run.bind, hgn]
    · have hloop : searchLoop w c.keys k (fuel + 3) 0 2 0 = .ret 0 := by
        subst heq0
        simp [searchLoop, hk0, hk1, hlt, e1]
      rw [hloop]
      simp [Run.bind, hgn]
  · have hloop : searchLoop w c.keys k (fuel + 3) 0 2 0 = .ret 1 := by
      subst heq
      simp [searchLoop, hk1]
    rw [hloop]
    simp [Run.bind, hgn, hsz]

/-- The search loop of `getIndex` on a target that lies between the smallest and the
largest populated key: it stays inside the populated slots, stops, and the final `middle`
either holds the target or is next to the place where the target would stand.  `K j` is the
key stored in the populated slot `j`. -/
theorem searchLoop_inside (w : Nat) (keys : List Int) (key : Int) (n : Nat) (K : Nat → Int)
    (hK : ∀ j, j < n → keys[j]? = some (K j)) (hnw : n < 2 ^ w)
    (hmono : ∀ a b, a ≤ b → b < n → K a ≤ K b)
    (hlo : K 0 ≤ key) (hhi : key ≤ K (n - 1)) :
    ∀ (fuel left right middle : Nat),
      left < n → right ≤ n → left ≤ right + 1 →
      (∀ j, j < left → K j < key) →
      (∀ j, right < j → j < n → key < K j) →
      (left ≤ right ∨ (middle < n ∧
        ((left = middle + 1 ∧ K middle < key) ∨ (right + 1 = middle ∧ key < K middle)))) →
      right + 2 ≤ fuel + left →
      ∃ m, searchLoop w keys key fuel left right middle = .ret m ∧ m < n ∧
        (K m = key ∨ (K m < key ∧ ∀ j, m < j → j < n → key < K j) ∨
          (key < K m ∧ ∀ j, j < m → K j < key)) := by
  intro fuel
  induction fuel with
  | zero =>
    intro left right middle _ _ h3 _ _ _ hf
    omega
  | succ f ih =>
    intro left right middle hl hr hlr ha hb hprobe hf
    unfold searchLoop
    by_cases hle : left ≤ right
    · simp only [hle, if_true]
      have hm : left + (right - left) / 2 < n := by omega
      have hm1 : left ≤ left + (right - left) / 2 := by omega
      have hm2 : left + (right - left) / 2 ≤ right := by omega
      generalize left + (right - left) / 2 = m at hm hm1 hm2
      rw [hK m hm]
      simp only
      by_cases h1 : key < K m
      · simp only [h1, if_true]
        have hm0 : m ≠ 0 := by
          intro h0
          subst h0
          omega
        have hsub : wsub w m 1 = m - 1 := wsub_one w m (by omega) (by omega)
        rw [hsub]
        refine ih left (m - 1) m hl (by omega) (by omega) ha ?_ ?_ (by omega)
        · intro j hj1 hj2
          have := hmono m j (by omega) hj2
          omega
        · exact Or.inr ⟨hm, Or.inr ⟨by omega, h1⟩⟩
      · by_cases h2 : key > K m
        · simp only [h1, h2, if_true, if_false]
          have hmn : m + 1 < n := by
            by_contra hcon
            have hmeq : m = n - 1 := by omega
            rw [hmeq] at h2
            omega
          have hadd : wadd w m 1 = m + 1 := wadd_one w m (by omega)
          rw [hadd]
          refine ih (m + 1) right m hmn hr (by omega) ?_ hb ?_ (by omega)
          · intro j hj
            have := hmono j m (by omega) hm
            omega
          · exact Or.inr ⟨hm, Or.inl ⟨rfl, h2⟩⟩
        · simp only [h1, h2, if_false]
          exact ⟨m, rfl, hm, Or.inl (by omega)⟩
    · simp only [hle, if_false]
      rcases hprobe with h | ⟨hmn, h | h⟩
      · exact absurd h hle
      · refine ⟨middle, rfl, hmn, Or.inr (Or.inl ⟨h.2, ?_⟩)⟩
        intro j hj1 hj2
        exact hb j (by omega) hj2
      · refine ⟨middle, rfl, hmn, Or.inr (Or.inr ⟨h.2, ?_⟩)⟩
        intro j hj
        exact ha j (by omega)

/-- The populated slots of a container, read as a function `K` of the index. -/
theorem populated_keys (size : Nat) (c : FloatKeyContainer V) (hs : Shaped size c)
    (hle : c.elements ≤ size) (hsort : SortedKeys c) :
    ∃ K : Nat → Int, (∀ j, j < c.elements → c.keys[j]? = some (K j)) ∧
      (∀ a b, a ≤ b → b < c.elements → K a ≤ K b) := by
  have hK : ∀ j, j < c.elements → c.keys[j]? = some (c.keys[j]?.getD 0) := by
    intro j hj
    have hjl : j < c.keys.length := by have := hs.1; omega
    rw [List.getElem?_eq_getElem hjl]
    rfl
  refine ⟨fun j => c.keys[j]?.getD 0, hK, ?_⟩
  intro a b hab hb
  rcases Nat.eq_or_lt_of_le hab with h | h
  · subst h
    exact le_refl _
  · exact (sortedKeys_iff c).1 hsort a b _ _ h hb (hK a (by omega)) (hK b hb)

theorem tie_between (k x y : Int) (hxy : x < y) (htie : |k - x| = |y - k|) :
    k - x = y - k := by
  rcases abs_eq_abs.1 htie with h | h
  · exact h
  · omega

theorem exactOn_populated (ka : KeyArith) (c : FloatKeyContainer V) (k : Int)
    (K : Nat → Int) (hK : ∀ j, j < c.elements → c.keys[j]? = some (K j))
    (hex : ExactOn ka c k) :
    ∀ j, j < c.elements → ka.Exact (k - K j) ∧ ka.Exact (K j - k) := by
  intro j hj
  apply hex
  rw [List.mem_iff_getElem?]
  exact ⟨j, by rw [List.getElem?_take_of_lt hj, hK j hj]⟩

/-- The comparison made by `getNearestKey` on two populated slots. -/
theorem getNearestKey_populated (ka : KeyArith) (c : FloatKeyContainer V) (k : Int)
    (K : Nat → Int) (hK : ∀ j, j < c.elements → c.keys[j]? = some (K j))
    (hex : ∀ j, j < c.elements → ka.Exact (k - K j) ∧ ka.Exact (K j - k)) (a b : Nat)
    (ha : a < c.elements) (hb : b < c.elements) :
    getNearestKey ka c k a b = .ret (if |k - K a| < |K b - k| then a else b) :=
  getNearestKey_eq ka c k (K a) (K b) a b (hK a ha) (hK b hb) (hex a ha).1 (hex b hb).2

/-- The index returned by `getNearestKey` is one at which `keys` was read. -/
theorem getNearestKey_lt (ka : KeyArith) (c : FloatKeyContainer V) (k : Int) (a b r : Nat)
    (h : getNearestKey ka c k a b = .ret r) : r < c.keys.length := by
  unfold getNearestKey at h
  cases ha : c.keys[a]? with
  | none => simp [ha] at h
  | some ka1 =>
    cases hb : c.keys[b]? with
    | none => simp [ha, hb] at h
    | some kb =>
      simp only [ha, hb] at h
      have hal := (List.getElem?_eq_some.1 ha).1
      have hbl := (List.getElem?_eq_some.1 hb).1
      obtain ⟨d1, _, h⟩ := bind_eq_ret _ _ _ h
      obtain ⟨a1, _, h⟩ := bind_eq_ret _ _ _ h
      obtain ⟨d2, _, h⟩ := bind_eq_ret _ _ _ h
      obtain ⟨a2, _, h⟩ := bind_eq_ret _ _ _ h
      simp only [Run.ret.injEq] at h
      split at h <;> omega

/-- An index returned by `getIndex` lies inside the arrays. -/
theorem getIndex_lt (ka : KeyArith) (w size fuel : Nat) (c : FloatKeyContainer V) (k : Int)
    (r : Nat)
    (hs : Shaped size c) (hsize : 1 ≤ size) (h : getIndex ka w size fuel c k = .ret r) :
    r < size := by
  have hlen := hs.1
  unfold getIndex at h
  split at h
  · simp only [Run.ret.injEq] at h
    omega
  · obtain ⟨m, _, h⟩ := bind_eq_ret _ _ _ h
    split at h
    · obtain ⟨a, _, h⟩ := bind_eq_ret _ _ _ h
      obtain ⟨b, _, h⟩ := bind_eq_ret _ _ _ h
      have := getNearestKey_lt ka c k a b r h
      omega
    · split at h
      · split at h
        · simp only [Run.ret.injEq] at h
          omega
        · have := getNearestKey_lt ka c k 0 1 r h
          omega
      · split at h
        · split at h
          · simp only [Run.ret.injEq] at h
            omega
          · have := getNearestKey_lt ka c k 0 1 r h
            omega
        · simp at h

/-- `getNearestKey` looks at `keys` only. -/
theorem getNearestKey_congr (ka : KeyArith) (c c1 : FloatKeyContainer V)
    (hk : c1.keys = c.keys) (k : Int) (a b : Nat) :
    getNearestKey ka c1 k a b = getNearestKey ka c k a b := by
  unfold getNearestKey
  rw [hk]

/-- `getIndex` looks at `elements` and `keys` only. -/
theorem getIndex_congr (ka : KeyArith) (w size fuel : Nat) (c c1 : FloatKeyContainer V)
    (he : c1.elements = c.elements) (hk : c1.keys = c.keys) (k : Int) :
    getIndex ka w size fuel c1 k = getIndex ka w size fuel c k := by
  unfold getIndex
  simp only [he, hk, getNearestKey_congr ka c c1 hk]

/-- The effect of `set` when `getIndex` returns `r`. -/
theorem set_spec (ka : KeyArith) (w size fuel : Nat) (c : FloatKeyContainer V) (k : Int)
    (v : V) (r : Nat) (hs : Shaped size c) (hsize : 1 ≤ size)
    (hr : getIndex ka w size fuel c k = .ret r) :
    r < c.values.length ∧
    set ka w size fuel c k v
      = .ret { elements := c.elements, keys := c.keys, values := c.values.set r v } := by
  have hlt := getIndex_lt ka w size fuel c k r hs hsize hr
  have hrv : r < c.values.length := by have := hs.2; omega
  refine ⟨hrv, ?_⟩
  unfold set
  rw [hr]
  simp only [Run.bind, hrv, if_true]

theorem wsub_zero_one (w : Nat) : wsub w 0 1 = 2 ^ w - 1 := by
  unfold wsub
  have hpos : 0 < 2 ^ w := Nat.two_pow_pos w
  rcases Nat.eq_zero_or_pos w with h | h
  · subst h
    simp
  · have h2 : 2 ≤ 2 ^ w := two_le_two_pow w h
    rw [Nat.mod_eq_of_lt (show 1 < 2 ^ w by omega), Nat.zero_add,
      Nat.mod_eq_of_lt (by omega)]

/-- The search loop stops: when both arrays fit the address space (`2 * length < 2^w`) and
`right` starts inside or just behind the array, a run with `right + 3 - left` units of
fuel does not use them up.  After the wrap of `right = middle-1` at `middle = 0` the
next probe, `keys[(2^w-1)/2]`, lies outside the array. -/
theorem searchLoop_stops (w : Nat) (keys : List Int) (key : Int)
    (hfit : 2 * keys.length < 2 ^ w) :
    ∀ (fuel left right middle : Nat), right ≤ keys.length → left ≤ right + 1 →
      right + 3 ≤ fuel + left →
      searchLoop w keys key fuel left right middle ≠ .timeout := by
  intro fuel
  induction fuel with
  | zero =>
    intro left right middle _ h2 h3
    omega
  | succ f ih =>
    intro left right middle hr hlr hf
    unfold searchLoop
    by_cases hle : left ≤ right
    · simp only [hle, if_true]
      have hm1 : left ≤ left + (right - left) / 2 := by omega
      have hm2 : left + (right - left) / 2 ≤ right := by omega
      generalize left + (right - left) / 2 = m at hm1 hm2
      cases hk : keys[m]? with
      | none => simp
      | some km =>
        have hml : m < keys.length := (List.getElem?_eq_some.1 hk).1
        simp only
        by_cases h1 : key < km
        · simp only [h1, if_true]
          by_cases hm0 : m = 0
          · subst hm0
            have hl0 : left = 0 := by omega
            subst hl0
            rw [wsub_zero_one]
            have hf1 : 1 ≤ f := by omega
            obtain ⟨g, hg⟩ : ∃ g, f = g + 1 := ⟨f - 1, by omega⟩
            subst hg
            unfold searchLoop
            have hnone : keys[0 + (2 ^ w - 1 - 0) / 2]? = none := by
              apply List.getElem?_eq_none
              omega
            simp only [Nat.zero_le, if_true, hnone]
            simp
          · rw [wsub_one w m (by omega) (by omega)]
            exact ih left (m - 1) m (by omega) (by omega) (by omega)
        · by_cases h2 : key > km
          · simp only [h1, h2, if_true, if_false]
            rw [wadd_one w m (by omega)]
            exact ih (m + 1) right m hr (by omega) (by omega)
          · simp only [h1, h2, if_false]
            simp
    · simp only [hle, if_false]
      simp

/-- The `middle` returned by the search loop is an index at which the loop read `keys`. -/
theorem searchLoop_ret_mem_reads (w : Nat) (keys : List Int) (key : Int) :
    ∀ (fuel left right middle m : Nat), left ≤ right →
      searchLoop w keys key fuel left right middle = .ret m →
      m ∈ searchLoopReads w keys key fuel left right := by
  intro fuel
  induction fuel with
  | zero =>
    intro left right middle m _ h
    simp [searchLoop] at h
  | succ f ih =>
    intro left right middle m hle h
    unfold searchLoop at h
    unfold searchLoopReads
    simp only [hle, if_true] at h ⊢
    generalize left + (right - left) / 2 = p at h ⊢
    cases hk : keys[p]? with
    | none => simp [hk] at h
    | some km =>
      simp only [hk] at h ⊢
      by_cases h1 : key < km
      · simp only [h1, if_true] at h ⊢
        by_cases hle2 : left ≤ wsub w p 1
        · exact List.mem_cons_of_mem _ (ih _ _ _ _ hle2 h)
        · cases f with
          | zero => simp [searchLoop] at h
          | succ g =>
            unfold searchLoop at h
            simp only [hle2, if_false, Run.ret.injEq] at h
            rw [← h]
            exact List.mem_cons_self _ _
      · by_cases h2 : key > km
        · simp only [h1, h2, if_true, if_false] at h ⊢
          by_cases hle2 : wadd w p 1 ≤ right
          · exact List.mem_cons_of_mem _ (ih _ _ _ _ hle2 h)
          · cases f with
            | zero => simp [searchLoop] at h
            | succ g =>
              unfold searchLoop at h
              simp only [hle2, if_false, Run.ret.injEq] at h
              rw [← h]
              exact List.mem_cons_self _ _
        · simp only [h1, h2, if_false, Run.ret.injEq] at h ⊢
          rw [← h]
          exact List.mem_singleton.2 rfl

/-- An address that is not written keeps its byte. -/
theorem writes_frame (ops : List (Nat × Byte)) :
    ∀ (s : Store) (x : Nat), x ∉ ops.map Prod.fst → (s.writes ops) x = s x := by
  induction ops with
  | nil => intro s x _; rfl
  | cons ab rest ih =>
    intro s x hx
    simp only [List.map_cons, List.mem_cons, not_or] at hx
    unfold Store.writes
    rw [ih (s.write ab.1 ab.2) x hx.2]
    unfold Store.write
    rw [if_neg hx.1]

/-- When no address is written twice, an address that is written holds the byte written
there. -/
theorem writes_hit (ops : List (Nat × Byte)) :
    ∀ (s : Store) (x : Nat) (b : Byte), (ops.map Prod.fst).Nodup → (x, b) ∈ ops →
      (s.writes ops) x = b := by
  induction ops with
  | nil => intro s x b _ h; simp at h
  | cons ab rest ih =>
    intro s x b hnd hmem
    simp only [List.map_cons, List.nodup_cons] at hnd
    unfold Store.writes
    rcases List.mem_cons.1 hmem with h | h
    · subst h
      rw [writes_frame rest _ _ hnd.1]
      simp [Store.write]
    · exact ih _ x b hnd.2 h

theorem writeLoop_eq (w base : Nat) (memory : List Byte) :
    ∀ (todo i : Nat), writeLoop w base memory todo i
      = (List.range' i todo).map (fun o => ((base + o) % 2 ^ w, memory.getD o 0)) := by
  intro todo
  induction todo with
  | zero => intro i; rfl
  | succ n ih =>
    intro i
    unfold writeLoop
    rw [ih (i + 1)]
    simp [List.range'_succ, wadd]

theorem wadd_wadd (w a b o : Nat) : (wadd w a b + o) % 2 ^ w = (a + (b + o)) % 2 ^ w := by
  unfold wadd
  rw [Nat.add_mod, Nat.mod_mod, ← Nat.add_mod, Nat.add_assoc]

theorem wmul_eq (w a b : Nat) (h : a * b < 2 ^ w) : wmul w a b = a * b := by
  unfold wmul
  exact Nat.mod_eq_of_lt h

/-- The addresses written by `save`, in order: `address + o` in `size_t` arithmetic for
`o` from 0 to the size of the image. -/
theorem saveWrites_addresses (L : Layout V) (w size : Nat) (c : FloatKeyContainer V)
    (a : Nat) (hK : L.sizeofKey * size < 2 ^ w) (hV : L.sizeofValue * size < 2 ^ w) :
    (saveWrites L w size c a).map Prod.fst
      = (List.range' 0 (L.sizeofSize + L.sizeofKey * size + L.sizeofValue * size)).map
          (fun o => (a + o) % 2 ^ w) := by
  unfold saveWrites
  simp only [wmul_eq w _ _ hK, wmul_eq w _ _ hV, writeLoop_eq, List.map_append, List.map_map]
  have e1 : (Prod.fst ∘ fun o => ((a + o) % 2 ^ w, (elementsMemory L c).getD o 0))
      = fun o => (a + o) % 2 ^ w := rfl
  have e2 : (Prod.fst ∘ fun o => ((wadd w a L.sizeofSize + o) % 2 ^ w,
      (keysMemory L c).getD o 0))
      = (fun o => (a + o) % 2 ^ w) ∘ (fun o => L.sizeofSize + o) := by
    funext o
    simp only [Function.comp, wadd_wadd]
  have e3 : (Prod.fst ∘ fun o =>
      ((wadd w (wadd w a L.sizeofSize) (L.sizeofKey * size) + o) % 2 ^ w,
      (valuesMemory L c).getD o 0))
      = (fun o => (a + o) % 2 ^ w) ∘ (fun o => (L.sizeofSize + L.sizeofKey * size) + o) := by
    funext o
    simp only [Function.comp, wadd_wadd]
    rw [Nat.add_assoc]
  rw [e1, e2, e3, ← List.map_map, ← List.map_map, List.map_add_range', List.map_add_range',
    ← List.map_append, ← List.map_append]
  congr 1
  have h1 := List.range'_append 0 L.sizeofSize (L.sizeofKey * size) 1
  have h2 := List.range'_append 0 (L.sizeofKey * size + L.sizeofSize) (L.sizeofValue * size) 1
  simp only [Nat.zero_add, Nat.one_mul, Nat.add_zero] at h1 h2 ⊢
  rw [h1, show L.sizeofSize + L.sizeofKey * size = L.sizeofKey * size + L.sizeofSize by omega,
    h2]
  congr 1
  omega

theorem add_mod_inj (m a o1 o2 : Nat) (h1 : o1 < m) (h2 : o2 < m)
    (h : (a + o1) % m = (a + o2) % m) : o1 = o2 :=
  Nat.ModEq.eq_of_lt_of_lt (Nat.ModEq.add_left_cancel' a h) h1 h2

/-- When the image is not longer than the address space, `save` writes no address twice. -/
theorem saveWrites_nodup (L : Layout V) (w size : Nat) (c : FloatKeyContainer V) (a : Nat)
    (hK : L.sizeofKey * size < 2 ^ w) (hV : L.sizeofValue * size < 2 ^ w)
    (htot : L.sizeofSize + L.sizeofKey * size + L.sizeofValue * size ≤ 2 ^ w) :
    ((saveWrites L w size c a).map Prod.fst).Nodup := by
  rw [saveWrites_addresses L w size c a hK hV]
  apply List.Nodup.map_on
  · intro x hx y hy hxy
    obtain ⟨i, hi, rfl⟩ := List.mem_range'.1 hx
    obtain ⟨j, hj, rfl⟩ := List.mem_range'.1 hy
    exact add_mod_inj (2 ^ w) a _ _ (by omega) (by omega) hxy
  · exact List.nodup_range' 0 _

theorem mem_writeLoop (w base : Nat) (memory : List Byte) (todo i : Nat) (hi : i < todo) :
    ((base + i) % 2 ^ w, memory.getD i 0) ∈ writeLoop w base memory todo 0 := by
  rw [writeLoop_eq]
  exact List.mem_map.2 ⟨i, List.mem_range'.2 ⟨i, hi, by omega⟩, rfl⟩

/-- The bytes found in the store after `save`, region by region. -/
theorem save_regions (L : Layout V) (w size : Nat) (c : FloatKeyContainer V) (a : Nat)
    (s : Store) (hK : L.sizeofKey * size < 2 ^ w) (hV : L.sizeofValue * size < 2 ^ w)
    (htot : L.sizeofSize + L.sizeofKey * size + L.sizeofValue * size ≤ 2 ^ w) :
    (∀ i, i < L.sizeofSize →
      (save L w size c a s).2 ((a + i) % 2 ^ w) = (elementsMemory L c).getD i 0) ∧
    (∀ i, i < L.sizeofKey * size →
      (save L w size c a s).2 ((a + (L.sizeofSize + i)) % 2 ^ w)
        = (keysMemory L c).getD i 0) ∧
    (∀ i, i < L.sizeofValue * size →
      (save L w size c a s).2 ((a + (L.sizeofSize + (L.sizeofKey * size + i))) % 2 ^ w)
        = (valuesMemory L c).getD i 0) := by
  have hnd := saveWrites_nodup L w size c a hK hV htot
  refine ⟨fun i hi => ?_, fun i hi => ?_, fun i hi => ?_⟩
  · apply writes_hit _ s _ _ hnd
    unfold saveWrites
    exact List.mem_append_left _ (List.mem_append_left _ (mem_writeLoop w a _ _ i hi))
  · apply writes_hit _ s _ _ hnd
    unfold saveWrites
    simp only [wmul_eq w _ _ hK, wmul_eq w _ _ hV]
    rw [← wadd_wadd]
    exact List.mem_append_left _ (List.mem_append_right _
      (mem_writeLoop w (wadd w a L.sizeofSize) (keysMemory L c) _ i hi))
  · apply writes_hit _ s _ _ hnd
    unfold saveWrites
    simp only [wmul_eq w _ _ hK, wmul_eq w _ _ hV]
    rw [← wadd_wadd, ← wadd_wadd]
    exact List.mem_append_right _
      (mem_writeLoop w (wadd w (wadd w a L.sizeofSize) (L.sizeofKey * size))
        (valuesMemory L c) _ i hi)

theorem readLoop_length (w base : Nat) (s : Store) :
    ∀ (todo i : Nat) (memory : List Byte),
      (readLoop w base s todo i memory).length = memory.length := by
  intro todo
  induction todo with
  | zero => intro i memory; rfl
  | succ n ih =>
    intro i memory
    unfold readLoop
    rw [ih, List.length_set]

theorem readLoop_getElem_opt (w base : Nat) (s : Store) :
    ∀ (todo i : Nat) (memory : List Byte) (o : Nat),
      (readLoop w base s todo i memory)[o]?
        = if i ≤ o ∧ o < i + todo ∧ o < memory.length then some (s.read (wadd w base o))
          else memory[o]? := by
  intro todo
  induction todo with
  | zero =>
    intro i memory o
    unfold readLoop
    rw [if_neg (by omega)]
  | succ n ih =>
    intro i memory o
    unfold readLoop
    rw [ih, List.length_set]
    by_cases hoi : o = i
    · subst hoi
      rw [if_neg (by omega)]
      by_cases hl : o < memory.length
      · rw [if_pos ⟨le_refl _, by omega, hl⟩, List.getElem?_set_self hl]
      · rw [if_neg (by omega), List.getElem?_eq_none (by rw [List.length_set]; omega),
          List.getElem?_eq_none (by omega)]
    · rw [List.getElem?_set_ne (fun h => hoi h.symm)]
      by_cases hc : i ≤ o ∧ o < i + (n + 1) ∧ o < memory.length
      · rw [if_pos hc, if_pos ⟨by omega, by omega, hc.2.2⟩]
      · rw [if_neg hc, if_neg (by omega)]

/-- A loop of `load` over a whole member replaces its bytes by the bytes of the store. -/
theorem readLoop_eq (w base : Nat) (s : Store) (todo : Nat) (memory target : List Byte)
    (hm : memory.length = todo) (ht : target.length = todo)
    (h : ∀ o, o < todo → s ((base + o) % 2 ^ w) = target.getD o 0) :
    readLoop w base s todo 0 memory = target := by
  apply List.ext_getElem?
  intro o
  rw [readLoop_getElem_opt]
  by_cases ho : o < todo
  · rw [if_pos ⟨Nat.zero_le _, by omega, by omega⟩]
    unfold Store.read wadd
    rw [h o ho, List.getD_eq_getElem _ _ (by omega), List.getElem?_eq_getElem (by omega)]
  · rw [if_neg (by omega), List.getElem?_eq_none (by omega), List.getElem?_eq_none (by omega)]

/-! ## The claims -/

/-- C1: `insert` preserves sortedness.  For a container of capacity `size` (necessarily
`>= 1`) that is not full and whose populated keys are non-decreasing, `insert` returns,
increments `elements` and leaves the populated keys non-decreasing; hence any sequence of
at most `size` insertions into a newly constructed container returns with `elements` equal
to the number of insertions and the populated keys non-decreasing. -/
theorem insert_preserves_sorted [Zero V] (w size : Nat) (hw : size < 2 ^ w) :
    (∀ (c : FloatKeyContainer V) (key : Int) (value : V),
      Shaped size c → c.elements < size → SortedKeys c →
      ∃ c1, insert w size c key value = .ret c1 ∧ c1.elements = c.elements + 1 ∧
        SortedKeys c1) ∧
    (∀ kvs : List (Int × V), kvs.length ≤ size →
      ∃ c1, insertAll w size (new size) kvs = .ret c1 ∧ c1.elements = kvs.length ∧
        SortedKeys c1) := by
  constructor
  · intro c key value hs hlt hsort
    obtain ⟨c1, hrun, _, hel, hsort1⟩ := insert_sorted_step w size c key value hs hw hlt hsort
    exact ⟨c1, hrun, hel, hsort1⟩
  · intro kvs hlen
    obtain ⟨c1, hrun, _, hel, hsort1⟩ :=
      insertAll_sorted w size hw kvs (new size) (shaped_new size) (sortedKeys_new size)
        (by simp only [new]; omega)
    exact ⟨c1, hrun, by simpa [new] using hel, hsort1⟩

/-- Witness for C1: capacity 4, 16-bit `size_t`; the container holding keys 0, 50, 100
receives 25, and the four insertions 0, 50, 100, 25 are run from a new container. -/
theorem insert_preserves_sorted_witness :
    4 < 2 ^ 16 ∧
    (∃ c1, insert 16 4 (⟨3, [0, 50, 100, 0], [1, 2, 3, 0]⟩ : FloatKeyContainer Int) 25 4
        = .ret c1 ∧ c1.elements = 3 + 1 ∧ SortedKeys c1) ∧
    (∃ c1, insertAll 16 4 (new 4 : FloatKeyContainer Int) [(0, 1), (50, 2), (100, 3), (25, 4)]
        = .ret c1 ∧ c1.elements = 4 ∧ SortedKeys c1) :=
  ⟨by decide,
   (insert_preserves_sorted 16 4 (by decide)).1
      ⟨3, [0, 50, 100, 0], [1, 2, 3, 0]⟩ 25 4 (by decide) (by decide) (by decide),
   (insert_preserves_sorted 16 4 (by decide)).2
      [(0, 1), (50, 2), (100, 3), (25, 4)] (by decide)⟩

/-- C2 (failing input): capacity 4, the converted keys 0, 50, 100 inserted in that order,
then 25.  The insertion point is 1; the shift loop runs upwards, so slot 3 receives the old
pair of slot 1 (key 50) instead of the old pair of slot 2 (key 100), and the entry with
key 100 is no longer stored. -/
theorem insert_shift_overwrites :
    insertAll 16 4 (new 4 : FloatKeyContainer Int) [(0, 1), (50, 2), (100, 3)]
      = .ret ⟨3, [0, 50, 100, 0], [1, 2, 3, 0]⟩ ∧
    insertScan [0, 50, 100, 0] 25 3 0 = .ret 1 ∧
    insert 16 4 (⟨3, [0, 50, 100, 0], [1, 2, 3, 0]⟩ : FloatKeyContainer Int) 25 4
      = .ret ⟨4, [0, 25, 50, 50], [1, 4, 2, 2]⟩ ∧
    ([0, 25, 50, 50] : List Int)[2 + 1]? ≠ ([0, 50, 100, 0] : List Int)[2]? ∧
    (100 : Int) ∉ ([0, 25, 50, 50] : List Int) := by
  decide

/-- C3 (failing input): capacity 4, populated keys 0, 50, 100 (as left by inserting them
into a new container), target 90, `key_type` with the arithmetic of a 16-bit `int`.  The
loop stops with `middle = 2 = elements-1`, that branch compares the indices 0 and 1, and
`getIndex` returns 1 (key 50, distance 40) although index 2 (key 100, distance 10) is
nearer; `get` returns the value stored under 50. -/
theorem getIndex_not_nearest :
    insertAll 16 4 (new 4 : FloatKeyContainer Int) [(0, 1), (50, 2), (100, 3)]
      = .ret ⟨3, [0, 50, 100, 0], [1, 2, 3, 0]⟩ ∧
    (∀ fuel, getIndex int16 16 4 (fuel + 3)
        (⟨3, [0, 50, 100, 0], [1, 2, 3, 0]⟩ : FloatKeyContainer Int) 90 = .ret 1) ∧
    (∀ fuel, get int16 16 4 (fuel + 3)
        (⟨3, [0, 50, 100, 0], [1, 2, 3, 0]⟩ : FloatKeyContainer Int) 90 = .ret 2) ∧
    ([0, 50, 100, 0] : List Int)[1]? = some 50 ∧ ([0, 50, 100, 0] : List Int)[2]? = some 100 ∧
    ¬ (|(50 : Int) - 90| ≤ |(100 : Int) - 90|) :=
  ⟨by decide, fun _ => rfl, fun _ => rfl, rfl, rfl, by decide⟩

/-- C4 (failing input): capacity 4, populated keys 0, 50, 100 (as left by inserting them
into a new container), target 100, the largest stored key, `key_type` with the arithmetic
of a 16-bit `int`.  The loop hits it at `middle = 2 = elements-1`, that branch compares the
indices 0 and 1, and `getIndex` returns 1, whose key is 50; `get` returns the value stored
under 50, not the one stored under 100. -/
theorem getIndex_misses_exact_hit :
    insertAll 16 4 (new 4 : FloatKeyContainer Int) [(0, 1), (50, 2), (100, 3)]
      = .ret ⟨3, [0, 50, 100, 0], [1, 2, 3, 0]⟩ ∧
    (∀ fuel, getIndex int16 16 4 (fuel + 2)
        (⟨3, [0, 50, 100, 0], [1, 2, 3, 0]⟩ : FloatKeyContainer Int) 100 = .ret 1) ∧
    (∀ fuel, get int16 16 4 (fuel + 2)
        (⟨3, [0, 50, 100, 0], [1, 2, 3, 0]⟩ : FloatKeyContainer Int) 100 = .ret 2) ∧
    ([0, 50, 100, 0] : List Int)[1]? = some 50 ∧ ([0, 50, 100, 0] : List Int)[2]? = some 100 ∧
    ([1, 2, 3, 0] : List Int)[2]? = some 3 :=
  ⟨by decide, fun _ => rfl, fun _ => rfl, rfl, rfl, rfl⟩

/-- C5 (counterexample): a 16-bit `int` as `key_type`, capacity 2, keys -32768 and 5 with
values 65 and 66 (as left by inserting them into a new container), target 0.  The target
lies between the keys and is strictly closer to `keys[1]`, but `key - keys[0]` is 32768,
which overflows: `get` does not return `values[1]`. -/
theorem get_two_elements_overflow :
    insertAll 16 2 (new 2 : FloatKeyContainer Nat) [(-32768, 65), (5, 66)]
      = .ret ⟨2, [-32768, 5], [65, 66]⟩ ∧
    ((-32768 : Int) ≤ 0 ∧ (0 : Int) ≤ 5) ∧ |(5 : Int) - 0| < |(0 : Int) - (-32768)| ∧
    get int16 16 2 3 (⟨2, [-32768, 5], [65, 66]⟩ : FloatKeyContainer Nat) 0 = .overflow ∧
    ¬ ∃ fuel,
      get int16 16 2 fuel (⟨2, [-32768, 5], [65, 66]⟩ : FloatKeyContainer Nat) 0 = .ret 66 := by
  refine ⟨by decide, by decide, by decide, rfl, ?_⟩
  rintro ⟨fuel, h⟩
  match fuel, h with
  | 0, h => exact absurd h (by decide)
  | 1, h => exact absurd h (by decide)
  | 2, h => exact absurd h (by decide)
  | n + 3, h =>
    have h1 : get int16 16 2 (n + 3)
        (⟨2, [-32768, 5], [65, 66]⟩ : FloatKeyContainer Nat) 0 = .overflow := rfl
    rw [h1] at h
    exact absurd h (by decide)

/-- C5 (amended): two-element lookup between the stored keys.  With `elements = 2`,
capacity at least 2, `keys[0] <= k <= keys[1]` and the differences `k - keys[0]` and
`keys[1] - k` representable in `key_type`: `getIndex` returns 0 and `get` returns
`values[0]` when `k` is strictly closer to `keys[0]`; they return 1 and `values[1]` when `k`
is strictly closer to `keys[1]`.  Three iterations of fuel are enough. -/
theorem get_two_elements (ka : KeyArith) (w size fuel : Nat) (c : FloatKeyContainer V)
    (k k0 k1 : Int) (v0 v1 : V) (hw : size < 2 ^ w) (hsize : 2 ≤ size) (he : c.elements = 2)
    (hk0 : c.keys[0]? = some k0) (hk1 : c.keys[1]? = some k1)
    (hv0 : c.values[0]? = some v0) (hv1 : c.values[1]? = some v1)
    (hlo : k0 ≤ k) (hhi : k ≤ k1) (hex0 : ka.Exact (k - k0)) (hex1 : ka.Exact (k1 - k)) :
    (|k - k0| < |k1 - k| →
      getIndex ka w size (fuel + 3) c k = .ret 0 ∧ get ka w size (fuel + 3) c k = .ret v0) ∧
    (|k1 - k| < |k - k0| →
      getIndex ka w size (fuel + 3) c k = .ret 1 ∧ get ka w size (fuel + 3) c k = .ret v1) := by
  have hidx := getIndex_two ka w size fuel c k k0 k1 hw hsize he hk0 hk1 hlo hhi hex0 hex1
  constructor
  · intro h
    rw [if_pos h] at hidx
    refine ⟨hidx, ?_⟩
    unfold get
    rw [hidx]
    simp only [Run.bind, hv0]
  · intro h
    rw [if_neg (by omega)] at hidx
    refine ⟨hidx, ?_⟩
    unfold get
    rw [hidx]
    simp only [Run.bind, hv1]

/-- Witness for C5 (amended), the instance of the specification: keys 0 and 100 (the
floating keys 0.0 and 1.0 scaled by 100) with values 65 and 66; the target 30 yields 65,
the target 70 yields 66, for a `key_type` with the arithmetic of a 16-bit `int` and for a
16-bit `unsigned int`. -/
theorem get_two_elements_witness :
    (getIndex int16 16 2 3 (⟨2, [0, 100], [65, 66]⟩ : FloatKeyContainer Nat) 30 = .ret 0 ∧
      get int16 16 2 3 (⟨2, [0, 100], [65, 66]⟩ : FloatKeyContainer Nat) 30 = .ret 65) ∧
    (getIndex uint16 16 2 3 (⟨2, [0, 100], [65, 66]⟩ : FloatKeyContainer Nat) 70 = .ret 1 ∧
      get uint16 16 2 3 (⟨2, [0, 100], [65, 66]⟩ : FloatKeyContainer Nat) 70 = .ret 66) :=
  ⟨(get_two_elements int16 16 2 0 ⟨2, [0, 100], [65, 66]⟩ 30 0 100 65 66 (by decide)
      (by decide) rfl rfl rfl rfl rfl (by decide) (by decide) (by decide) (by decide)).1
      (by decide),
   (get_two_elements uint16 16 2 0 ⟨2, [0, 100], [65, 66]⟩ 70 0 100 65 66 (by decide)
      (by decide) rfl rfl rfl rfl rfl (by decide) (by decide) (by decide) (by decide)).2
      (by decide)⟩

/-- C6: single-element lookup.  With `elements = 1` (capacity at least 1) `getIndex`
returns 0 for every target key and every amount of fuel, and `get` returns `values[0]`. -/
theorem get_single_element (ka : KeyArith) (w size fuel : Nat) (c : FloatKeyContainer V)
    (k : Int) (hs : Shaped size c) (hsize : 1 ≤ size) (he : c.elements = 1) :
    getIndex ka w size fuel c k = .ret 0 ∧
    ∃ v, c.values[0]? = some v ∧ get ka w size fuel c k = .ret v := by
  have hidx : getIndex ka w size fuel c k = .ret 0 := by
    unfold getIndex
    rw [if_pos he]
  have hlen : 0 < c.values.length := by have := hs.2; omega
  refine ⟨hidx, c.values[0], List.getElem?_eq_getElem hlen, ?_⟩
  unfold get
  rw [hidx]
  simp only [Run.bind, List.getElem?_eq_getElem hlen]

/-- Witness for C6: the container holding the single converted key 500 with value 88,
asked for the target 7 with no fuel at all. -/
theorem get_single_element_witness :
    getIndex int16 16 3 0 (⟨1, [500, 0, 0], [88, 0, 0]⟩ : FloatKeyContainer Nat) 7 = .ret 0 ∧
    ∃ v, ([88, 0, 0] : List Nat)[0]? = some v ∧
      get int16 16 3 0 (⟨1, [500, 0, 0], [88, 0, 0]⟩ : FloatKeyContainer Nat) 7 = .ret v :=
  get_single_element int16 16 3 0 ⟨1, [500, 0, 0], [88, 0, 0]⟩ 7 (by decide) (by decide) rfl

/-- C7 (counterexample): populated keys 0 and 100, target 50, equidistant from both.
`getIndex` returns 1, the higher index, and no amount of fuel makes it return 0. -/
theorem getIndex_tie_returns_higher :
    getIndex int16 16 4 3 (⟨2, [0, 100, 0, 0], [1, 2, 0, 0]⟩ : FloatKeyContainer Int) 50 = .ret 1 ∧
    |(50 : Int) - 0| = |(100 : Int) - 50| ∧
    ¬ ∃ fuel, getIndex int16 16 4 fuel
        (⟨2, [0, 100, 0, 0], [1, 2, 0, 0]⟩ : FloatKeyContainer Int) 50 = .ret 0 := by
  refine ⟨rfl, by decide, ?_⟩
  rintro ⟨fuel, h⟩
  match fuel, h with
  | 0, h => exact absurd h (by decide)
  | 1, h => exact absurd h (by decide)
  | 2, h => exact absurd h (by decide)
  | n + 3, h =>
    have h1 : getIndex int16 16 4 (n + 3)
        (⟨2, [0, 100, 0, 0], [1, 2, 0, 0]⟩ : FloatKeyContainer Int) 50 = .ret 1 := rfl
    rw [h1] at h
    exact absurd h (by decide)

/-- C7 (amended): ties resolve toward the higher key.  For a container with
`2 <= elements <= size`, non-decreasing populated keys, a `key_type` that computes the
differences between `k` and the populated keys exactly, and a target `k` equidistant from
the adjacent populated keys `keys[i] < keys[i+1]`, where `elements = 2` or `i+1` is not the
last populated index, `getIndex` returns `i+1` or `i+2`, and the key at the returned index
is `keys[i+1]` (so `i+2` is possible only when `keys[i+2] = keys[i+1]`).  Fuel
`elements + 2` is enough. -/
theorem getIndex_tie_higher (ka : KeyArith) (w size fuel : Nat) (c : FloatKeyContainer V)
    (k ki ki1 : Int) (i : Nat) (hs : Shaped size c) (hw : size < 2 ^ w)
    (hle : c.elements ≤ size) (hsort : SortedKeys c) (hex : ExactOn ka c k)
    (hi : i + 1 < c.elements)
    (hki : c.keys[i]? = some ki) (hki1 : c.keys[i + 1]? = some ki1)
    (hlt : ki < ki1) (htie : |k - ki| = |ki1 - k|)
    (hpos : c.elements = 2 ∨ i + 2 < c.elements) :
    ∃ r, getIndex ka w size (fuel + c.elements + 2) c k = .ret r ∧
      (r = i + 1 ∨ r = i + 2) ∧ r < c.elements ∧ c.keys[r]? = some ki1 := by
  obtain ⟨K, hK, hmono⟩ := populated_keys size c hs hle hsort
  have hKi : K i = ki := by
    have := hK i (by omega); rw [hki] at this; simpa using this.symm
  have hKi1 : K (i + 1) = ki1 := by
    have := hK (i + 1) hi; rw [hki1] at this; simpa using this.symm
  have hmid := tie_between k ki ki1 hlt htie
  have hnw : c.elements < 2 ^ w := by omega
  have hsub : wsub w c.elements 1 = c.elements - 1 := wsub_one w c.elements (by omega) hnw
  have h0i := hmono 0 i (Nat.zero_le _) (by omega)
  have hin := hmono (i + 1) (c.elements - 1) (by omega) (by omega)
  obtain ⟨m, hloop, hmn, hm⟩ := searchLoop_inside w c.keys k c.elements K hK hnw hmono
    (by omega) (by omega) (fuel + c.elements + 2) 0 c.elements 0 (by omega) (le_refl _)
    (by omega) (fun j hj => by omega) (fun j h1 h2 => by omega) (Or.inl (Nat.zero_le _))
    (by omega)
  have hmi : m = i ∨ m = i + 1 := by
    rcases hm with h | ⟨h1, h2⟩ | ⟨h1, h2⟩
    · rcases Nat.lt_or_ge i m with hlt1 | hge1
      · have := hmono (i + 1) m (by omega) hmn
        omega
      · have := hmono m i hge1 (by omega)
        omega
    · left
      rcases Nat.lt_trichotomy m i with hlt1 | heq | hgt
      · have := h2 i hlt1 (by omega)
        omega
      · exact heq
      · have := hmono (i + 1) m (by omega) hmn
        omega
    · right
      rcases Nat.lt_trichotomy m (i + 1) with hlt1 | heq | hgt
      · have := hmono m i (by omega) (by omega)
        omega
      · exact heq
      · have := h2 (i + 1) hgt
        omega
  have hne1 : c.elements ≠ 1 := by omega
  unfold getIndex
  rw [if_neg hne1, hloop]
  simp only [Run.bind, hsub]
  have hgn := getNearestKey_populated ka c k K hK (exactOn_populated ka c k K hK hex)
  have hsz : ¬ size < 2 := by omega
  have hel : ¬ c.elements < 2 := by omega
  rcases hmi with hm0 | hm0
  · subst hm0
    by_cases hi0 : m = 0
    · subst hi0
      have hK1 : K 1 = ki1 := hKi1
      refine ⟨1, ?_, Or.inl rfl, by omega, hki1⟩
      rw [if_neg (by omega), if_pos rfl, if_neg hel, hgn 0 1 (by omega) (by omega),
        if_neg (by rw [abs_of_pos (by omega), abs_of_pos (by omega)]; omega)]
    · have hprev := hmono (m - 1) m (by omega) (by omega)
      have hs1 : wsub w m 1 = m - 1 := wsub_one w m (by omega) (by omega)
      have ha1 : wadd w m 1 = m + 1 := wadd_one w m (by omega)
      refine ⟨m + 1, ?_, Or.inl rfl, by omega, hki1⟩
      rw [if_pos (by omega), hs1, ha1, hgn (m - 1) m (by omega) (by omega),
        if_neg (by rw [abs_of_pos (by omega), abs_of_neg (by omega)]; omega)]
      simp only [Run.bind]
      rw [hgn m (m + 1) (by omega) (by omega),
        if_neg (by rw [abs_of_pos (by omega), abs_of_pos (by omega)]; omega)]
      simp only [Run.bind]
      rw [hgn m (m + 1) (by omega) (by omega),
        if_neg (by rw [abs_of_pos (by omega), abs_of_pos (by omega)]; omega)]
  · subst hm0
    rcases hpos with h2 | h3
    · have hi0 : i = 0 := by omega
      subst hi0
      have hK1 : K 1 = ki1 := hKi1
      refine ⟨1, ?_, Or.inl rfl, by omega, hki1⟩
      rw [if_neg (by omega), if_neg (by omega), if_pos (by omega), if_neg hsz,
        hgn 0 1 (by omega) (by omega),
        if_neg (by rw [abs_of_pos (by omega), abs_of_pos (by omega)]; omega)]
    · have hnext := hmono (i + 1) (i + 2) (by omega) (by omega)
      have hs1 : wsub w (i + 1) 1 = i := wsub_one w (i + 1) (by omega) (by omega)
      have ha1 : wadd w (i + 1) 1 = i + 2 := wadd_one w (i + 1) (by omega)
      rw [if_pos (by omega), hs1, ha1, hgn i (i + 1) (by omega) (by omega),
        if_neg (by rw [abs_of_pos (by omega), abs_of_pos (by omega)]; omega)]
      simp only [Run.bind]
      rw [hgn (i + 1) (i + 2) (by omega) (by omega)]
      by_cases heq : K (i + 2) = K (i + 1)
      · refine ⟨i + 2, ?_, Or.inr rfl, by omega, by rw [hK (i + 2) (by omega), heq, hKi1]⟩
        rw [if_neg (by rw [abs_of_neg (by omega), abs_of_pos (by omega)]; omega)]
        simp only [Run.bind]
        rw [hgn (i + 1) (i + 2) (by omega) (by omega),
          if_neg (by rw [abs_of_neg (by omega), abs_of_pos (by omega)]; omega)]
      · refine ⟨i + 1, ?_, Or.inl rfl, by omega, hki1⟩
        rw [if_pos (by rw [abs_of_neg (by omega), abs_of_pos (by omega)]; omega)]
        simp only [Run.bind]
        rw [hgn (i + 1) (i + 1) (by omega) (by omega)]
        simp only [ite_self]

/-- Witness for C7 (amended), with the arithmetic of a 16-bit `int`: keys 0 and 100 with
target 50 (two elements), and keys 0, 50, 100, 200 with target 25, equidistant from the
keys at the indices 0 and 1. -/
theorem getIndex_tie_higher_witness :
    (∃ r, getIndex int16 16 4 (0 + 2 + 2)
        (⟨2, [0, 100, 0, 0], [1, 2, 0, 0]⟩ : FloatKeyContainer Int) 50 = .ret r ∧
      (r = 0 + 1 ∨ r = 0 + 2) ∧ r < 2 ∧ ([0, 100, 0, 0] : List Int)[r]? = some 100) ∧
    (∃ r, getIndex int16 16 4 (0 + 4 + 2)
        (⟨4, [0, 50, 100, 200], [1, 2, 3, 4]⟩ : FloatKeyContainer Int) 25 = .ret r ∧
      (r = 0 + 1 ∨ r = 0 + 2) ∧ r < 4 ∧ ([0, 50, 100, 200] : List Int)[r]? = some 50) :=
  ⟨getIndex_tie_higher int16 16 4 0 ⟨2, [0, 100, 0, 0], [1, 2, 0, 0]⟩ 50 0 100 0 (by decide)
      (by decide) (by decide) (by decide) (by decide) (by decide) rfl rfl (by decide)
      (by decide) (Or.inl rfl),
   getIndex_tie_higher int16 16 4 0 ⟨4, [0, 50, 100, 200], [1, 2, 3, 4]⟩ 25 0 50 0 (by decide)
      (by decide) (by decide) (by decide) (by decide) (by decide) rfl rfl (by decide)
      (by decide) (Or.inr (by decide))⟩

/-- C8 (failing inputs): capacity 4, two insertions into a new container, 16-bit `size_t`.
With populated keys 0 and 100 and target 150 the loop
reads the unpopulated slot 2, stops with `middle = 2`, and no branch of `getIndex` returns.
With populated keys 10 and 100 and target 5 the assignment `right = middle-1` wraps at
`middle = 0` to 65535 and the next iteration reads `keys[32767]`. -/
theorem getIndex_fails_outside_range :
    insertAll 16 4 (new 4 : FloatKeyContainer Int) [(0, 1), (100, 2)]
      = .ret ⟨2, [0, 100, 0, 0], [1, 2, 0, 0]⟩ ∧
    (∀ fuel, getIndex int16 16 4 (fuel + 3)
        (⟨2, [0, 100, 0, 0], [1, 2, 0, 0]⟩ : FloatKeyContainer Int) 150 = .noReturn) ∧
    insertAll 16 4 (new 4 : FloatKeyContainer Int) [(10, 1), (100, 2)]
      = .ret ⟨2, [10, 100, 0, 0], [1, 2, 0, 0]⟩ ∧
    (∀ fuel, getIndex int16 16 4 (fuel + 3)
        (⟨2, [10, 100, 0, 0], [1, 2, 0, 0]⟩ : FloatKeyContainer Int) 5 = .oobRead 32767) :=
  ⟨by decide, fun _ => rfl, by decide, fun _ => rfl⟩

/-- C9 (counterexample): on a newly constructed container of capacity 4 (`elements = 0`)
the target 5 makes `getIndex` return the index 0 and `get` return the zero-initialised
`values[0]`; no error is reported. -/
theorem getIndex_empty_returns :
    getIndex int16 16 4 2 (new 4 : FloatKeyContainer Int) 5 = .ret 0 ∧
    get int16 16 4 2 (new 4 : FloatKeyContainer Int) 5 = .ret 0 := by
  decide

/-- C9 (amended): on an empty container (`elements = 0`, capacity at least 1) and for a
target key not below `keys[0]`, `getIndex` returns the index 0 and `get` returns
`values[0]`; nothing signals that the container is empty. -/
theorem getIndex_empty (ka : KeyArith) (w size fuel : Nat) (c : FloatKeyContainer V)
    (k k0 : Int) (hs : Shaped size c) (hw : size < 2 ^ w) (hsize : 1 ≤ size)
    (he : c.elements = 0)
    (hk0 : c.keys[0]? = some k0) (hge : k0 ≤ k) :
    getIndex ka w size (fuel + 2) c k = .ret 0 ∧
    ∃ v, c.values[0]? = some v ∧ get ka w size (fuel + 2) c k = .ret v := by
  have hw1 : 1 ≤ w := one_lt_two_pow w size hw hsize
  have h2w : 2 ≤ 2 ^ w := two_le_two_pow w hw1
  have e2 : wadd w 0 1 = 1 := wadd_one w 0 (by omega)
  have hloop : searchLoop w c.keys k (fuel + 2) 0 0 0 = .ret 0 := by
    rcases lt_or_eq_of_le hge with hlt | heq
    · simp [searchLoop, hk0, hlt, e2, not_lt.2 hge]
    · subst heq
      simp [searchLoop, hk0]
  have hidx : getIndex ka w size (fuel + 2) c k = .ret 0 := by
    unfold getIndex
    rw [he, hloop]
    simp [Run.bind]
  have hlen : 0 < c.values.length := by have := hs.2; omega
  refine ⟨hidx, c.values[0], List.getElem?_eq_getElem hlen, ?_⟩
  unfold get
  rw [hidx]
  simp only [Run.bind, List.getElem?_eq_getElem hlen]

/-- Witness for C9 (amended): a new container of capacity 4 and the target 5. -/
theorem getIndex_empty_witness :
    getIndex int16 16 4 2 (new 4 : FloatKeyContainer Int) 5 = .ret 0 ∧
    ∃ v, (new 4 : FloatKeyContainer Int).values[0]? = some v ∧
      get int16 16 4 2 (new 4 : FloatKeyContainer Int) 5 = .ret v :=
  getIndex_empty int16 16 4 0 (new 4) 5 0 (by decide) (by decide) (by decide) rfl rfl
    (by decide)

/-- C10 (failing inputs): capacity 2, full after the insertions of 0 and 100.  Inserting
the key 50 returns with `elements = 3`; inserting the key 150 finds the insertion point 2
and writes `keys[2]`, outside the array. -/
theorem insert_full_exceeds_capacity :
    insertAll 16 2 (new 2 : FloatKeyContainer Int) [(0, 1), (100, 2)]
      = .ret ⟨2, [0, 100], [1, 2]⟩ ∧
    insert 16 2 (⟨2, [0, 100], [1, 2]⟩ : FloatKeyContainer Int) 50 7
      = .ret ⟨3, [0, 50], [1, 7]⟩ ∧
    insert 16 2 (⟨2, [0, 100], [1, 2]⟩ : FloatKeyContainer Int) 150 7 = .oobWrite 2 := by
  decide

/-- C11: `save` then `load` round trip.  Let `c` be a container state whose members hold
values of their types, `s` a byte store and `a` a base address whose image range does not
wrap the address type.  After `save(a)` from `c`, `load(a)` into any container `c0` yields
exactly `c`: `elements`, the whole of `keys` and the whole of `values`. -/
theorem save_load_roundtrip (L : Layout V) (w size : Nat) (c c0 : FloatKeyContainer V)
    (a : Nat) (s : Store) (hc : WellSized L size c) (hf : Faithful L size c)
    (hc0 : WellSized L size c0) (hC : 1 ≤ L.sizeofSize)
    (hnw : a + (L.sizeofSize + L.sizeofKey * size + L.sizeofValue * size) ≤ 2 ^ w) :
    load L w size c0 a (save L w size c a s).2 = c := by
  have hK : L.sizeofKey * size < 2 ^ w := by omega
  have hV : L.sizeofValue * size < 2 ^ w := by omega
  obtain ⟨h1, h2, h3⟩ := save_regions L w size c a s hK hV (by omega)
  unfold load
  simp only [wmul_eq w _ _ hK, wmul_eq w _ _ hV]
  rw [readLoop_eq w a _ L.sizeofSize _ (elementsMemory L c) hc0.1 hc.1 h1,
    readLoop_eq w (wadd w a L.sizeofSize) _ (L.sizeofKey * size) _ (keysMemory L c)
      hc0.2.1 hc.2.1 (fun o ho => by rw [wadd_wadd]; exact h2 o ho),
    readLoop_eq w (wadd w (wadd w a L.sizeofSize) (L.sizeofKey * size)) _
      (L.sizeofValue * size) _ (valuesMemory L c) hc0.2.2 hc.2.2
      (fun o ho => by rw [wadd_wadd, wadd_wadd]; exact h3 o ho)]
  exact hf

/-- Witness for C11: capacity 3 with one-byte keys and values and a 16-bit `size_t`; the
state with two populated slots and a stale third slot is saved at address 10 into a store
of zeros and loaded into a container with a different state. -/
theorem save_load_roundtrip_witness :
    load byteLayout 16 3 ⟨1, [9, 9, 9], [8, 8, 8]⟩ 10
        (save byteLayout 16 3 ⟨2, [0, 100, 77], [65, 66, 5]⟩ 10 (fun _ => 0)).2
      = ⟨2, [0, 100, 77], [65, 66, 5]⟩ :=
  save_load_roundtrip byteLayout 16 3 ⟨2, [0, 100, 77], [65, 66, 5]⟩ ⟨1, [9, 9, 9], [8, 8, 8]⟩
    10 (fun _ => 0) (by decide) (by decide) (by decide) (by decide) (by decide)

/-- C13 (counterexample): 16-bit `size_t`, capacity 1, one-byte keys and values, base
address 65535.  The image range is `[65535, 65539)`, but `address + i` wraps: `save` writes
the addresses 65535, 0, 1, 2, and the store changes at address 1, outside the range. -/
theorem save_wraps_out_of_range :
    (saveWrites byteLayout 16 1 ⟨1, [7], [9]⟩ 65535).map Prod.fst = [65535, 0, 1, 2] ∧
    (1 < 65535 ∨ 65535 + (2 + 1 * 1 + 1 * 1) ≤ 1) ∧
    (save byteLayout 16 1 ⟨1, [7], [9]⟩ 65535 (fun _ => 0)).2 1 = 7 ∧
    (save byteLayout 16 1 ⟨1, [7], [9]⟩ 65535 (fun _ => 0)).2 1 ≠ (fun _ => 0 : Store) 1 := by
  decide

/-- C13 (amended): `save` touches only its fixed-size image, for a base address whose
image range does not wrap the address type.  The store after `save(a)` agrees with `s` at
every address outside `[a, a + C + K + V)`; the addresses written are exactly those of
this range, in increasing order, whatever the state of the container; and `save` leaves
the container unchanged. -/
theorem save_frame (L : Layout V) (w size : Nat) (c : FloatKeyContainer V) (a : Nat)
    (s : Store) (hC : 1 ≤ L.sizeofSize)
    (hnw : a + (L.sizeofSize + L.sizeofKey * size + L.sizeofValue * size) ≤ 2 ^ w) :
    (∀ x, x < a ∨ a + (L.sizeofSize + L.sizeofKey * size + L.sizeofValue * size) ≤ x →
      (save L w size c a s).2 x = s x) ∧
    (saveWrites L w size c a).map Prod.fst
      = List.range' a (L.sizeofSize + L.sizeofKey * size + L.sizeofValue * size) ∧
    (save L w size c a s).1 = c := by
  have hK : L.sizeofKey * size < 2 ^ w := by omega
  have hV : L.sizeofValue * size < 2 ^ w := by omega
  have haddr : (saveWrites L w size c a).map Prod.fst
      = List.range' a (L.sizeofSize + L.sizeofKey * size + L.sizeofValue * size) := by
    rw [saveWrites_addresses L w size c a hK hV]
    have hmap : ∀ o ∈ List.range' 0
        (L.sizeofSize + L.sizeofKey * size + L.sizeofValue * size),
        (fun o => (a + o) % 2 ^ w) o = (fun o => a + o) o := by
      intro o ho
      obtain ⟨i, hi, rfl⟩ := List.mem_range'.1 ho
      exact Nat.mod_eq_of_lt (by omega)
    rw [List.map_congr_left hmap, List.map_add_range']
    rfl
  refine ⟨fun x hx => ?_, haddr, rfl⟩
  unfold save
  apply writes_frame
  rw [haddr]
  intro hmem
  obtain ⟨i, hi, rfl⟩ := List.mem_range'.1 hmem
  omega

/-- Witness for C13 (amended): capacity 3, base address 10, image range `[10, 18)`: the
address 18 keeps its byte and the addresses written are 10 to 17. -/
theorem save_frame_witness :
    (save byteLayout 16 3 ⟨2, [0, 100, 77], [65, 66, 5]⟩ 10 (fun _ => 1)).2 18
      = (fun _ => 1 : Store) 18 ∧
    (saveWrites byteLayout 16 3 ⟨2, [0, 100, 77], [65, 66, 5]⟩ 10).map Prod.fst
      = List.range' 10 (2 + 1 * 3 + 1 * 3) ∧
    (save byteLayout 16 3 ⟨2, [0, 100, 77], [65, 66, 5]⟩ 10 (fun _ => 1)).1
      = ⟨2, [0, 100, 77], [65, 66, 5]⟩ :=
  ⟨(save_frame byteLayout 16 3 ⟨2, [0, 100, 77], [65, 66, 5]⟩ 10 (fun _ => 1) (by decide)
      (by decide)).1 18 (by decide),
   (save_frame byteLayout 16 3 ⟨2, [0, 100, 77], [65, 66, 5]⟩ 10 (fun _ => 1) (by decide)
      (by decide)).2⟩

/-- C14: `set` is an in-place overwrite.  When `getIndex` returns the index `r` on a
container of capacity `size >= 1`, `set` returns, leaves `elements` and every slot of
`keys` unchanged, leaves `values[j]` unchanged for every `j != r` and makes
`values[r] = v`. -/
theorem set_overwrites_in_place (ka : KeyArith) (w size fuel : Nat) (c : FloatKeyContainer V)
    (k : Int) (v : V) (r : Nat) (hs : Shaped size c) (hsize : 1 ≤ size)
    (hr : getIndex ka w size fuel c k = .ret r) :
    ∃ c1, set ka w size fuel c k v = .ret c1 ∧ c1.elements = c.elements ∧ c1.keys = c.keys ∧
      c1.values.length = c.values.length ∧
      (∀ j, j ≠ r → c1.values[j]? = c.values[j]?) ∧ c1.values[r]? = some v := by
  obtain ⟨hrv, hset⟩ := set_spec ka w size fuel c k v r hs hsize hr
  refine ⟨_, hset, rfl, rfl, by simp only [List.length_set], ?_, ?_⟩
  · intro j hj
    exact List.getElem?_set_ne (fun h => hj h.symm)
  · exact List.getElem?_set_self hrv

/-- Witness for C14: keys 0 and 100 with values 65 and 66, target 30 (index 0), new
value 7. -/
theorem set_overwrites_in_place_witness :
    ∃ c1, set int16 16 2 3 (⟨2, [0, 100], [65, 66]⟩ : FloatKeyContainer Nat) 30 7 = .ret c1 ∧
      c1.elements = 2 ∧ c1.keys = [0, 100] ∧ c1.values.length = 2 ∧
      (∀ j, j ≠ 0 → c1.values[j]? = ([65, 66] : List Nat)[j]?) ∧ c1.values[0]? = some 7 :=
  set_overwrites_in_place int16 16 2 3 ⟨2, [0, 100], [65, 66]⟩ 30 7 0 (by decide) (by decide)
    rfl

/-- C15: insertion point and placement.  On a container that is not full, `insert`
returns with `elements` incremented, and there is an index `i <= ` old `elements` with
new `keys[i] = k`, new `values[i] = v` and every key in front of `i` strictly less than
`k`; so every slot of the new `keys` that holds `k` is at `i` or behind it. -/
theorem insert_placement (w size : Nat) (c : FloatKeyContainer V) (k : Int) (v : V)
    (hs : Shaped size c) (hw : size < 2 ^ w) (hlt : c.elements < size) :
    ∃ c1 i, insert w size c k v = .ret c1 ∧ c1.elements = c.elements + 1 ∧
      i ≤ c.elements ∧ c1.keys[i]? = some k ∧ c1.values[i]? = some v ∧
      (∀ t x, t < i → c1.keys[t]? = some x → x < k) ∧
      (∀ t, c1.keys[t]? = some k → i ≤ t) := by
  by_cases h0 : c.elements = 0
  · have hcond : 0 < c.keys.length ∧ 0 < c.values.length :=
      ⟨by have := hs.1; omega, by have := hs.2; omega⟩
    refine ⟨{ elements := 1, keys := c.keys.set 0 k, values := c.values.set 0 v }, 0, ?_,
      by simp only [h0], Nat.zero_le _, List.getElem?_set_self hcond.1,
      List.getElem?_set_self hcond.2, fun t x ht => by omega, fun t _ => Nat.zero_le _⟩
    unfold insert
    rw [if_pos h0, if_pos hcond]
  · obtain ⟨i, _, hie, hbelow, _, hins⟩ :=
      insert_spec w size c k v hs hw (by omega) (by omega)
    obtain ⟨c1, hrun, hel, _, hpre, hmid, _⟩ := hins (by omega)
    rw [wadd_one_of_lt w size c.elements hw hlt] at hel
    have hfront : ∀ t x, t < i → c1.keys[t]? = some x → x < k := by
      intro t x ht hx
      rw [(hpre t ht).1] at hx
      exact hbelow t x ht hx
    refine ⟨c1, i, hrun, hel, hie, hmid.1, hmid.2, hfront, ?_⟩
    intro t ht
    by_contra hcon
    have := hfront t k (by omega) ht
    omega

/-- Witness for C15: capacity 4, keys 0, 50, 100 stored, the equal key 50 inserted. -/
theorem insert_placement_witness :
    ∃ c1 i, insert 16 4 (⟨3, [0, 50, 100, 0], [1, 2, 3, 0]⟩ : FloatKeyContainer Int) 50 9
        = .ret c1 ∧ c1.elements = 3 + 1 ∧
      i ≤ 3 ∧ c1.keys[i]? = some 50 ∧ c1.values[i]? = some 9 ∧
      (∀ t x, t < i → c1.keys[t]? = some x → x < 50) ∧
      (∀ t, c1.keys[t]? = some 50 → i ≤ t) :=
  insert_placement 16 4 ⟨3, [0, 50, 100, 0], [1, 2, 3, 0]⟩ 50 9 (by decide) (by decide)
    (by decide)

/-- C16 (failing input): capacity 5, populated keys 0, 50, 100 (as left by inserting them
into a new container), target 150.  `right` starts at `elements = 3`, so the loop reads
`keys` at the indices 1, 2 and 3 and stops with `middle = 3`, an unpopulated slot; the
neighbour comparison then runs `getNearestKey` on the pairs (2, 3) and (3, 4), reading the
unpopulated slots 3 and 4, before `getIndex` returns 2. -/
theorem getIndex_reads_unpopulated :
    insertAll 16 5 (new 5 : FloatKeyContainer Int) [(0, 1), (50, 2), (100, 3)]
      = .ret ⟨3, [0, 50, 100, 0, 0], [1, 2, 3, 0, 0]⟩ ∧
    (∀ fuel, searchLoopReads 16 [0, 50, 100, 0, 0] 150 (fuel + 4) 0 3 = [1, 2, 3]) ∧
    (∀ fuel, searchLoop 16 [0, 50, 100, 0, 0] 150 (fuel + 4) 0 3 0 = .ret 3) ∧
    ((3 ≠ 0 ∧ 3 ≠ wsub 16 3 1) ∧ 3 > 2) ∧ wsub 16 3 1 = 2 ∧ wadd 16 3 1 = 4 ∧
    (∀ fuel, getIndex int16 16 5 (fuel + 4)
        (⟨3, [0, 50, 100, 0, 0], [1, 2, 3, 0, 0]⟩ : FloatKeyContainer Int) 150 = .ret 2) :=
  ⟨by decide, fun _ => rfl, fun _ => rfl, by decide, by decide, by decide, fun _ => rfl⟩

/-- C17 (counterexample): a 16-bit `unsigned int` as `key_type`.  With keys 10 and 200 and
key 5, `key - keys[0]` wraps to 65531, so `getNearestKey(5, 0, 1)` returns 1 although
`|5 - 10| < |200 - 5|`; with the keys 0 and 50 of the documented instance and key 65,
`keys[1] - key` wraps to 65521 and the result is 0, not 1. -/
theorem getNearestKey_unsigned_wraps :
    |(5 : Int) - 10| < |(200 : Int) - 5| ∧
    getNearestKey uint16 (⟨2, [10, 200], [1, 2]⟩ : FloatKeyContainer Int) 5 0 1 = .ret 1 ∧
    ¬ (|(65 : Int) - 0| < |(50 : Int) - 65|) ∧
    getNearestKey uint16 (⟨2, [0, 50], [1, 2]⟩ : FloatKeyContainer Int) 65 0 1 = .ret 0 := by
  decide

/-- C17 (amended): `getNearestKey` picks the closer of two indices when `key_type`
computes the two differences exactly.  For valid indices `first` and `second` such that
`k - keys[first]` and `keys[second] - k` are representable in `key_type` together with
their absolute values, it returns `first` when `|k - keys[first]| < |keys[second] - k|` and
`second` otherwise; the returned index is one of the two and its key is at least as close
to `k` as either of the two keys. -/
theorem getNearestKey_picks_closer (ka : KeyArith) (c : FloatKeyContainer V) (k kf ks : Int)
    (first second : Nat) (hf : c.keys[first]? = some kf) (hs : c.keys[second]? = some ks)
    (hex1 : ka.Exact (k - kf)) (hex2 : ka.Exact (ks - k)) :
    getNearestKey ka c k first second
      = .ret (if |k - kf| < |ks - k| then first else second) ∧
    ∃ r kr, getNearestKey ka c k first second = .ret r ∧ (r = first ∨ r = second) ∧
      c.keys[r]? = some kr ∧ |k - kr| ≤ |k - kf| ∧ |k - kr| ≤ |k - ks| := by
  have heq := getNearestKey_eq ka c k kf ks first second hf hs hex1 hex2
  refine ⟨heq, ?_⟩
  by_cases h : |k - kf| < |ks - k|
  · rw [if_pos h] at heq
    rw [abs_sub_comm ks k] at h
    exact ⟨first, kf, heq, Or.inl rfl, hf, le_refl _, le_of_lt h⟩
  · rw [if_neg h] at heq
    rw [abs_sub_comm ks k] at h
    exact ⟨second, ks, heq, Or.inr rfl, hs, not_lt.1 h, le_refl _⟩

/-- Witness for C17 (amended), the instance documented in the source with the arithmetic
of a 16-bit `int`: keys 0 and 50, key 65, `first = 0`, `second = 1`; the result is 1. -/
theorem getNearestKey_picks_closer_witness :
    getNearestKey int16 (⟨2, [0, 50], [1, 2]⟩ : FloatKeyContainer Int) 65 0 1 = .ret 1 :=
  (getNearestKey_picks_closer int16 ⟨2, [0, 50], [1, 2]⟩ 65 0 50 0 1 rfl rfl (by decide)
    (by decide)).1

/-- C19: read-after-write through the nearest-key accessors.  When `getIndex` returns an
index on a container of capacity `size >= 1`, `set(k, v)` returns and `get(k)` on the new
container returns `v`. -/
theorem get_after_set (ka : KeyArith) (w size fuel : Nat) (c : FloatKeyContainer V) (k : Int)
    (v : V) (r : Nat) (hs : Shaped size c) (hsize : 1 ≤ size)
    (hr : getIndex ka w size fuel c k = .ret r) :
    ∃ c1, set ka w size fuel c k v = .ret c1 ∧ getIndex ka w size fuel c1 k = .ret r ∧
      get ka w size fuel c1 k = .ret v := by
  obtain ⟨hrv, hset⟩ := set_spec ka w size fuel c k v r hs hsize hr
  have hidx : getIndex ka w size fuel
      { elements := c.elements, keys := c.keys, values := c.values.set r v } k = .ret r := by
    exact (getIndex_congr ka w size fuel c ⟨c.elements, c.keys, c.values.set r v⟩ rfl rfl
      k).trans hr
  refine ⟨_, hset, hidx, ?_⟩
  unfold get
  rw [hidx]
  simp only [Run.bind, List.getElem?_set_self hrv]

/-- Witness for C19: keys 0 and 100 with values 65 and 66, target 70 (index 1), new
value 7. -/
theorem get_after_set_witness :
    ∃ c1, set int16 16 2 3 (⟨2, [0, 100], [65, 66]⟩ : FloatKeyContainer Nat) 70 7 = .ret c1 ∧
      getIndex int16 16 2 3 c1 70 = .ret 1 ∧ get int16 16 2 3 c1 70 = .ret 7 :=
  get_after_set int16 16 2 3 ⟨2, [0, 100], [65, 66]⟩ 70 7 1 (by decide) (by decide) rfl

/-- C20: the narrowing loop of `getIndex` terminates.  For a container of capacity `size`
whose two arrays fit the address space of a `w`-bit `size_t` (`2 * size < 2^w`) and with
`elements <= size`, the loop started with `left = 0`, `right = elements` stops within
`elements + 3` units of fuel, for every target key: it returns a `middle` or ends on an
out-of-range read, and more fuel does not change the outcome. -/
theorem searchLoop_terminates (w size : Nat) (c : FloatKeyContainer V) (k : Int)
    (hs : Shaped size c) (hfit : 2 * size < 2 ^ w) (hle : c.elements ≤ size) :
    searchLoop w c.keys k (c.elements + 3) 0 c.elements 0 ≠ .timeout ∧
    ∀ extra, searchLoop w c.keys k (c.elements + 3 + extra) 0 c.elements 0
      = searchLoop w c.keys k (c.elements + 3) 0 c.elements 0 := by
  have hlen := hs.1
  have hstop := searchLoop_stops w c.keys k (by omega) (c.elements + 3) 0 c.elements 0
    (by omega) (by omega) (by omega)
  exact ⟨hstop, searchLoop_mono_add w c.keys k (c.elements + 3) 0 c.elements 0 _ rfl hstop⟩

/-- Witness for C20: capacity 4, keys 10 and 100, target 5, which is smaller than
`keys[0]`: `middle` reaches 0, `right` wraps, and the loop ends on the read of
`keys[32767]`. -/
theorem searchLoop_terminates_witness :
    searchLoop 16 [10, 100, 0, 0] 5 (2 + 3) 0 2 0 ≠ .timeout ∧
    ∀ extra, searchLoop 16 [10, 100, 0, 0] 5 (2 + 3 + extra) 0 2 0
      = searchLoop 16 [10, 100, 0, 0] 5 (2 + 3) 0 2 0 :=
  searchLoop_terminates 16 4 (⟨2, [10, 100, 0, 0], [1, 2, 0, 0]⟩ : FloatKeyContainer Int) 5
    (by decide) (by decide) (by decide)

end FloatKeyContainer
